import Mathlib

/-!
Shallow embedding of the ShapeShifter vector-path editing core.

The embedding follows the TypeScript sources:
* `CommandState.ts` — the `CommandState` / `Mutation` / `CommandStateMutator`
  machinery (splitting, unsplitting, converting, forking and merging one
  path command);
* `PathMutator.ts` — the builder over the forest of `SubPathState` objects;
* `PointCalculator.ts` — the degenerate-segment calculator.

Numbers are modelled as rationals.  Unique-id generation (`_.uniqueId()`) is
abstracted by passing the freshly generated ids as explicit arguments; the
ids play no computational role in any operation below.  Parts of the
repository that are referenced but whose files are not available
(`SubPathState.ts`, `CommandImpl.ts`, the curve calculators other than
`PointCalculator`) are modelled from the specification and marked as such in
their doc comments.
-/

namespace ShapeShifter

/-- Two-dimensional point (the repository's `Point`), coordinates as rationals. -/
structure Pt where
  x : ℚ
  y : ℚ
deriving DecidableEq

/-- Tag of an SVG path command (`SvgChar` in the source): moveto, lineto,
quadratic curve, cubic curve, closepath. -/
inductive SvgChar : Type where
  | M
  | L
  | Q
  | C
  | Z
deriving DecidableEq

/-- Modelled from the spec: `MathUtil.lerp` (MathUtil is not among the provided
sources) — linear interpolation between `a` and `b` at parameter `t`. -/
def lerp (a b t : ℚ) : ℚ := a + (b - a) * t

/-- A split record inside a `CommandState` (interface `Mutation` in
`CommandState.ts`): unique `id`, parameter `t` measured against the original
backing command, and the segment kind this portion is rendered as. -/
structure Mutation where
  id : ℕ
  t : ℚ
  svgChar : SvgChar
deriving DecidableEq

/-- One decoded path command (the immutable `Command` value; `CommandImpl.ts` is
not among the provided sources, so the accessors are modelled from the spec:
`getStart`/`getEnd` return the first/last point, `setPoints` replaces the point
list, `getId`/`getSvgChar` return the stored fields).  A point may be absent
(`undefined` in the source), which happens for the start point of the first
command of a built path. -/
structure Cmd where
  svgChar : SvgChar
  points : List (Option Pt)
  id : ℕ
  isSplit : Bool
deriving DecidableEq

/-- Modelled from the spec: `Command.getStart()` returns the first stored point
(or nothing when the list is empty / the entry is `undefined`). -/
def Cmd.getStart (c : Cmd) : Option Pt := c.points.head?.join

/-- Modelled from the spec: `Command.getEnd()` returns the last stored point. -/
def Cmd.getEnd (c : Cmd) : Option Pt := c.points.getLast?.join

/-- The capabilities of a `Calculator` that the verified operations exercise.
`findTimeByDistance` inverts arc length to a parameter; `arcLengthUpTo t`
models `split(0, t).getPathLength()`; `pointAt t` models the end point of the
command produced for the sub-arc ending at `t`.  Calculators other than
`PointCalculator` are not among the provided sources, so a calculator is kept
abstract as this record of functions. -/
structure Calculator where
  findTimeByDistance : ℚ → ℚ
  arcLengthUpTo : ℚ → ℚ
  pointAt : ℚ → Pt

/-- `PointCalculator` (PointCalculator.ts): `findTimeByDistance(distance)`
returns `distance` unchanged; `split` returns a point calculator over the same
point and `getPathLength()` is `0`, hence every sub-arc length is `0`; every
command it produces has all its points equal to `point`. -/
def pointCalculator (point : Pt) : Calculator where
  findTimeByDistance := fun distance => distance
  arcLengthUpTo := fun _ => 0
  pointAt := fun _ => point

/-- Descriptor of one output command produced by the loop in
`CommandStateMutator.build()` (CommandState.ts lines 268–296):
`calculator.split(t0, t1).convert(svgChar).toCommand().mutate().setId(id)`,
with `toggleSplit()` applied to every non-terminal entry.  The calculator of a
command state is fixed while mutations are applied, so this tuple determines
the built command; `endPt` records the produced command's end point. -/
structure BuiltCmd where
  t0 : ℚ
  t1 : ℚ
  svgChar : SvgChar
  id : ℕ
  isSplit : Bool
  endPt : Pt

/-- The geometric content of a built command: the sub-arc of the (fixed)
calculator it covers together with the kind it was converted to.  Two built
command lists over the same calculator are geometrically equal exactly when
their images under this projection agree. -/
def BuiltCmd.geom (b : BuiltCmd) : ℚ × ℚ × SvgChar := (b.t0, b.t1, b.svgChar)

/-- The loop of `CommandStateMutator.build()`: walk the mutations in order,
taking for each the calculator sub-arc `[prevT, currT]`, converting it to the
mutation's kind, assigning the mutation's id, and marking every non-terminal
result as a split. -/
def buildCommandsAux (cal : Calculator) : ℚ → List Mutation → List BuiltCmd
  | _, [] => []
  | prevT, m :: rest =>
    ⟨prevT, m.t, m.svgChar, m.id, !rest.isEmpty, cal.pointAt m.t⟩ ::
      buildCommandsAux cal m.t rest

/-- `CommandState` (CommandState.ts): the original backing command, the derived
command list, the mutation list, the calculator, and the represented parameter
sub-range `[minT, maxT]`.  The transform chain is not embedded: no verified
operation reads or writes it and it is independent of the mutation
bookkeeping. -/
structure CommandState where
  backingCommand : Cmd
  commands : List BuiltCmd
  mutations : List Mutation
  calculator : Calculator
  minT : ℚ
  maxT : ℚ

/-- The default constructor `new CommandState(backingCommand)`: a single
mutation `{id: backing.getId(), t: 1, svgChar: backing.getSvgChar()}`, command
list containing just the backing command (recorded as the descriptor of the
whole `[0, 1]` arc), range `[0, 1]`.  The calculator (`newCalculator`, not
among the provided sources) is passed explicitly. -/
def CommandState.fresh (backing : Cmd) (cal : Calculator) : CommandState where
  backingCommand := backing
  commands := [⟨0, 1, backing.svgChar, backing.id, false, cal.pointAt 1⟩]
  mutations := [⟨backing.id, 1, backing.svgChar⟩]
  calculator := cal
  minT := 0
  maxT := 1

def CommandState.getCommands (cs : CommandState) : List BuiltCmd := cs.commands

/-- The geometric content of a command state's current command list. -/
def CommandState.geom (cs : CommandState) : List (ℚ × ℚ × SvgChar) :=
  cs.commands.map BuiltCmd.geom

/-- `CommandStateMutator` (CommandState.ts): a builder holding plain mutable
fields for one `CommandState`. -/
structure CommandStateMutator where
  backingCommand : Cmd
  mutations : List Mutation
  calculator : Calculator
  minT : ℚ
  maxT : ℚ

/-- `CommandState.mutate()`. -/
def CommandState.mutate (cs : CommandState) : CommandStateMutator :=
  ⟨cs.backingCommand, cs.mutations, cs.calculator, cs.minT, cs.maxT⟩

/-- `CommandStateMutator.build()`: rebuild the command list from the mutation
list and package a new `CommandState`. -/
def CommandStateMutator.build (mu : CommandStateMutator) : CommandState :=
  ⟨mu.backingCommand, buildCommandsAux mu.calculator mu.minT mu.mutations,
    mu.mutations, mu.calculator, mu.minT, mu.maxT⟩

/-- `_.sortedIndexBy(list, {t: t, ...}, m => m.t)`: the lowest index at which a
record with parameter `t` can be inserted keeping the list sorted — the length
of the maximal prefix of strictly smaller `t` values (which is what the
lodash binary search returns on a sorted list). -/
def sortedInsertionIdx (ms : List Mutation) (t : ℚ) : ℕ :=
  (ms.takeWhile fun m => m.t < t).length

/-- `this.mutations.splice(insertionIdx, 0, mut)` preceded by the
`_.sortedIndexBy` computation. -/
def insertMutation (ms : List Mutation) (m0 : Mutation) : List Mutation :=
  ms.insertIdx (sortedInsertionIdx ms m0.t) m0

/-- `_.sortedIndex(currSplits, t)` over a plain list of parameters. -/
def sortedIndexQ (l : List ℚ) (t : ℚ) : ℕ :=
  (l.takeWhile fun x => x < t).length

/-- One step of the forcing loop at CommandState.ts lines 186–192: a closepath
mutation is force-converted into a line. -/
def forceToLine (m : Mutation) : Mutation :=
  if m.svgChar = SvgChar.Z then { m with svgChar := SvgChar.L } else m

/-- The loop at CommandState.ts lines 186–192: it runs over the indices
`i < length - 1`, so every mutation except the last has `forceToLine`
applied. -/
def forceSplitClosepathToLine : List Mutation → List Mutation
  | [] => []
  | [m] => [m]
  | m :: m2 :: rest => forceToLine m :: forceSplitClosepathToLine (m2 :: rest)

/-- The private `CommandStateMutator.split(ts)` (CommandState.ts lines
172–194).  Returns the mutator unchanged when no parameter is supplied or the
backing command is a moveto.  Otherwise each parameter is inserted at its
sorted position with a fresh id (passed alongside each `t`) and a kind looked
up among the pre-existing kinds, and non-terminal closepath kinds are then
forced to lines.  The `List.getD` fallback kind is never reached for the
in-range parameters the verified statements use (the source would index past
the array there). -/
def CommandStateMutator.split (mu : CommandStateMutator) (tsIds : List (ℚ × ℕ)) :
    CommandStateMutator :=
  if tsIds.isEmpty ∨ mu.backingCommand.svgChar = SvgChar.M then mu
  else
    let currSplits := mu.mutations.map (·.t)
    let currSvgChars := mu.mutations.map (·.svgChar)
    let inserted := tsIds.foldl
      (fun ms ti =>
        insertMutation ms ⟨ti.2, ti.1, currSvgChars.getD (sortedIndexQ currSplits ti.1) SvgChar.L⟩)
      mu.mutations
    { mu with mutations := forceSplitClosepathToLine inserted }

/-- The mutation record one iteration of the insertion loop in `split`
builds: the fresh id, the parameter, and the kind looked up among the
pre-existing kinds at the plain sorted index of the parameter. -/
def splitMut (mu : CommandStateMutator) (b : ℚ × ℕ) : Mutation :=
  ⟨b.2, b.1,
    (mu.mutations.map fun m => m.svgChar).getD
      (sortedIndexQ (mu.mutations.map fun m => m.t) b.1) SvgChar.L⟩

/-- The split boundaries `[this.minT, ...this.mutations.map(m => m.t)]`. -/
def tempSplits (minT : ℚ) (ms : List Mutation) : List ℚ :=
  minT :: ms.map (·.t)

/-- `CommandStateMutator.splitAtIndex(splitIdx, ts)`: the supplied `t` values
are linearly interpolated between the split boundaries flanking `splitIdx`
before being handed to `split`. -/
def CommandStateMutator.splitAtIndex (mu : CommandStateMutator) (splitIdx : ℕ)
    (tsIds : List (ℚ × ℕ)) : CommandStateMutator :=
  let temp := tempSplits mu.minT mu.mutations
  let startSplit := temp.getD splitIdx 0
  let endSplit := temp.getD (splitIdx + 1) 0
  mu.split (tsIds.map fun ti => (lerp startSplit endSplit ti.1, ti.2))

/-- `CommandStateMutator.splitInHalfAtIndex(splitIdx)`: the single split
parameter is `findTimeByDistance` applied to
`MathUtil.lerp(startSplit, endSplit, 0.5)`. -/
def CommandStateMutator.splitInHalfAtIndex (mu : CommandStateMutator) (splitIdx : ℕ)
    (newId : ℕ) : CommandStateMutator :=
  let temp := tempSplits mu.minT mu.mutations
  let startSplit := temp.getD splitIdx 0
  let endSplit := temp.getD (splitIdx + 1) 0
  let distance := lerp startSplit endSplit (1 / 2)
  mu.split [(mu.calculator.findTimeByDistance distance, newId)]

/-- `CommandStateMutator.unsplitAtIndex(splitIdx)`: `splice(splitIdx, 1)`. -/
def CommandStateMutator.unsplitAtIndex (mu : CommandStateMutator) (splitIdx : ℕ) :
    CommandStateMutator :=
  { mu with mutations := mu.mutations.eraseIdx splitIdx }

/-- `CommandStateMutator.convertAtIndex(splitIdx, svgChar)`: rewrite that
mutation's kind in place (`this.mutations[splitIdx] = _.assign({},
this.mutations[splitIdx], {svgChar})`, an index assignment, i.e. `List.set`;
the `getD` fallback is never reached for an in-range index). -/
def CommandStateMutator.convertAtIndex (mu : CommandStateMutator) (splitIdx : ℕ)
    (svgChar : SvgChar) : CommandStateMutator :=
  let old := mu.mutations.getD splitIdx ⟨0, 0, svgChar⟩
  { mu with mutations := mu.mutations.set splitIdx { old with svgChar := svgChar } }

/-- The map of `unconvertSubpath()` (CommandState.ts lines 216–227): every
mutation's kind reverts to the backing command's kind, except that for a
closepath backing command every mutation other than the last (the loop's
`i !== length - 1` test) is forced to a line. -/
def unconvertMutations (backingSvgChar : SvgChar) : List Mutation → List Mutation
  | [] => []
  | [m] => [{ m with svgChar := backingSvgChar }]
  | m :: m2 :: rest =>
    { m with svgChar := if backingSvgChar = SvgChar.Z then SvgChar.L else backingSvgChar } ::
      unconvertMutations backingSvgChar (m2 :: rest)

/-- `CommandStateMutator.unconvertSubpath()`. -/
def CommandStateMutator.unconvertSubpath (mu : CommandStateMutator) : CommandStateMutator :=
  { mu with mutations := unconvertMutations mu.backingCommand.svgChar mu.mutations }

/-- `CommandStateMutator.forkLeft(splitIdx)`: pin `maxT` to that mutation's `t`
and keep the mutations up to and including `splitIdx`. -/
def CommandStateMutator.forkLeft (mu : CommandStateMutator) (splitIdx : ℕ) :
    CommandStateMutator :=
  { mu with
    maxT := (mu.mutations.getD splitIdx ⟨0, mu.maxT, SvgChar.L⟩).t
    mutations := mu.mutations.take (splitIdx + 1) }

/-- `CommandStateMutator.forkRight(splitIdx)`: pin `minT` to that mutation's
`t` and keep the remaining mutations. -/
def CommandStateMutator.forkRight (mu : CommandStateMutator) (splitIdx : ℕ) :
    CommandStateMutator :=
  { mu with
    minT := (mu.mutations.getD splitIdx ⟨0, mu.minT, SvgChar.L⟩).t
    mutations := mu.mutations.drop (splitIdx + 1) }

/-- `CommandStateMutator.merge(cs)` (CommandState.ts lines 133–146): expand the
range to the union and insert every mutation of `cs` at its sorted position.
The id-conflict check only emits `console.warn` and never changes the result;
the number of diagnostics it would print is `mergeWarningCount` below. -/
def CommandStateMutator.merge (mu : CommandStateMutator) (cs : CommandState) :
    CommandStateMutator :=
  { mu with
    minT := min mu.minT cs.minT
    maxT := max mu.maxT cs.maxT
    mutations := cs.mutations.foldl insertMutation mu.mutations }

/-- The number of `console.warn('merged command states have conflicting ids')`
diagnostics emitted by `merge`: one per absorbed mutation whose id already
occurs in the pre-merge mutation list. -/
def mergeWarningCount (mu : CommandStateMutator) (cs : CommandState) : ℕ :=
  (cs.mutations.filter fun m => mu.mutations.any fun m0 => m0.id = m.id).length

/-- `CommandStateMutator.revert()`: a single mutation carrying the last
mutation's id, `t = maxT` and the backing kind.  The source reads
`_.last(this.mutations).id` and therefore faults on an empty mutation list,
modelled by `none`.  The calculator reset to `newCalculator(backingCommand)`
is not modelled (no transform is ever applied in the verified statements, so
the stored calculator already is the backing command's calculator). -/
def CommandStateMutator.revert (mu : CommandStateMutator) : Option CommandStateMutator :=
  match mu.mutations.getLast? with
  | none => none
  | some last =>
    some { mu with mutations := [⟨last.id, mu.maxT, mu.backingCommand.svgChar⟩] }

/-- `CommandState.fork(splitIdx)`: the left and right command states obtained
through `forkLeft`/`forkRight`. -/
def CommandState.fork (cs : CommandState) (splitIdx : ℕ) : CommandState × CommandState :=
  ((cs.mutate.forkLeft splitIdx).build, (cs.mutate.forkRight splitIdx).build)

/-- The raw result of `this.calculator.project(point)`: closest coordinate,
parameter and distance. -/
structure ProjectionResult where
  x : ℚ
  y : ℚ
  t : ℚ
  d : ℚ
deriving DecidableEq

/-- `CommandState.project(point)` (CommandState.ts lines 60–81) after the
calculator returned the raw projection `pr` (the delegation to
`this.calculator.project(point)` is abstracted as the parameter): count the
mutations with `t` below the raw parameter, then remap the parameter into the
range bounded by the flanking split boundaries, with `0` for a zero-width
range. -/
def CommandState.projectRaw (cs : CommandState) (pr : ProjectionResult) :
    ProjectionResult × ℕ :=
  let splitIdx := ((cs.mutations.map fun m => if m.t < pr.t then 1 else 0).sum : ℕ)
  let temp := tempSplits cs.minT cs.mutations
  let startSplit := temp.getD splitIdx 0
  let endSplit := temp.getD (splitIdx + 1) 0
  ({ pr with
      t := if startSplit = endSplit then 0 else (pr.t - startSplit) / (endSplit - startSplit) },
    splitIdx)

/-- Convenience wrappers used to phrase whole-operation round trips. -/
def CommandState.splitAtIndexOp (cs : CommandState) (splitIdx : ℕ)
    (tsIds : List (ℚ × ℕ)) : CommandState :=
  (cs.mutate.splitAtIndex splitIdx tsIds).build

def CommandState.splitInHalfAtIndexOp (cs : CommandState) (splitIdx : ℕ)
    (newId : ℕ) : CommandState :=
  (cs.mutate.splitInHalfAtIndex splitIdx newId).build

def CommandState.unsplitAtIndexOp (cs : CommandState) (splitIdx : ℕ) : CommandState :=
  (cs.mutate.unsplitAtIndex splitIdx).build

def CommandState.convertAtIndexOp (cs : CommandState) (splitIdx : ℕ)
    (svgChar : SvgChar) : CommandState :=
  (cs.mutate.convertAtIndex splitIdx svgChar).build

def CommandState.unconvertSubpathOp (cs : CommandState) : CommandState :=
  cs.mutate.unconvertSubpath.build

def CommandState.mergeOp (cs other : CommandState) : CommandState :=
  (cs.mutate.merge other).build

def CommandState.revertOp (cs : CommandState) : Option CommandState :=
  cs.mutate.revert.map CommandStateMutator.build

/-- Modelled from the spec: `SubPathState` (SubPathState.ts is not among the
provided sources) — an ordered list of command states forming one contour, the
list of child sub-path states this node has been divided into, a rotation
`shiftOffset`, a reversal flag, and a stable id.  A node with children is
internal, otherwise it is a leaf. -/
inductive SubPathState : Type where
  | mk : List CommandState → List SubPathState → ℕ → Bool → ℕ → SubPathState

def SubPathState.commandStates : SubPathState → List CommandState
  | .mk css _ _ _ _ => css

def SubPathState.splitSubPaths : SubPathState → List SubPathState
  | .mk _ sub _ _ _ => sub

def SubPathState.shiftOffset : SubPathState → ℕ
  | .mk _ _ so _ _ => so

def SubPathState.isReversed : SubPathState → Bool
  | .mk _ _ _ rev _ => rev

def SubPathState.id : SubPathState → ℕ
  | .mk _ _ _ _ i => i

/-- `SubPathState.isSplit()`: whether the node has been divided into children. -/
def SubPathState.isSplit (s : SubPathState) : Bool := !s.splitSubPaths.isEmpty

/-- Modelled from the spec: the `SubPathStateMutator` setters used by
`PathMutator` are plain field updates producing a new node. -/
def SubPathState.setCommandStates (s : SubPathState) (css : List CommandState) : SubPathState :=
  .mk css s.splitSubPaths s.shiftOffset s.isReversed s.id

def SubPathState.setSplitSubPaths (s : SubPathState) (sub : List SubPathState) : SubPathState :=
  .mk s.commandStates sub s.shiftOffset s.isReversed s.id

def SubPathState.setShiftOffset (s : SubPathState) (so : ℕ) : SubPathState :=
  .mk s.commandStates s.splitSubPaths so s.isReversed s.id

def SubPathState.setId (s : SubPathState) (i : ℕ) : SubPathState :=
  .mk s.commandStates s.splitSubPaths s.shiftOffset s.isReversed i

/-- Modelled from the spec: `SubPathState.reverse()` toggles `isReversed`; the
commands are not eagerly reordered — the flag is interpreted at read time. -/
def SubPathState.reverse (s : SubPathState) : SubPathState :=
  .mk s.commandStates s.splitSubPaths s.shiftOffset (!s.isReversed) s.id

/-- `setCommandState(cm, cmIdx)`: replace the command state at one index. -/
def SubPathState.setCommandState (s : SubPathState) (cm : CommandState) (cmIdx : ℕ) :
    SubPathState :=
  s.setCommandStates (s.commandStates.set cmIdx cm)

/-- The total number of commands a (leaf) sub-path state currently yields:
`_.sum(sps.commandStates.map(cm => cm.getCommands().length))`. -/
def numCommandsInSubPath (s : SubPathState) : ℕ :=
  (s.commandStates.map fun cm => cm.commands.length).sum

mutual

/-- The leaves of a sub-path-state tree in document order (the order in which
the counter of `PathMutator.setSubPathState`, PathMutator.ts lines 33–46,
visits non-split nodes). -/
def leavesOf : SubPathState → List SubPathState
  | .mk css sub so rev i =>
    if sub.isEmpty then [.mk css sub so rev i] else leavesList sub

def leavesList : List SubPathState → List SubPathState
  | [] => []
  | s :: rest => leavesOf s ++ leavesList rest

end

mutual

/-- The recursion of `PathMutator.setSubPathState` (PathMutator.ts lines
33–46): walk the tree, counting leaves, and replace the `k`-th leaf with
`new0`; returns the rebuilt node together with the updated counter. -/
def replaceLeafNode (k : ℕ) (new0 : SubPathState) : SubPathState → ℕ → SubPathState × ℕ
  | .mk css sub so rev i, c =>
    if sub.isEmpty then
      (if c = k then new0 else .mk css sub so rev i, c + 1)
    else
      let r := replaceLeafList k new0 sub c
      (.mk css r.1 so rev i, r.2)

def replaceLeafList (k : ℕ) (new0 : SubPathState) :
    List SubPathState → ℕ → List SubPathState × ℕ
  | [], c => ([], c)
  | s :: rest, c =>
    let r1 := replaceLeafNode k new0 s c
    let r2 := replaceLeafList k new0 rest r1.2
    (r1.1 :: r2.1, r2.2)

end

/-- `PathMutator` state: the forest of sub-path states, the visible ordering
permutation, and the count of trailing collapsing sub-paths. -/
structure PathMutator where
  subPathStateMap : List SubPathState
  subPathOrdering : List ℕ
  numCollapsingSubPaths : ℕ

/-- Modelled from the spec: `findSubPathState(map, cmsIdx)` (SubPathState.ts is
not among the provided sources) returns the `cmsIdx`-th leaf of the forest in
document order, matching the counter of `setSubPathState`. -/
def PathMutator.findSubPathState (pm : PathMutator) (cmsIdx : ℕ) : Option SubPathState :=
  (leavesList pm.subPathStateMap).get? cmsIdx

/-- `PathMutator.setSubPathState(state, cmsIdx)`. -/
def PathMutator.setSubPathState (pm : PathMutator) (state : SubPathState) (cmsIdx : ℕ) :
    PathMutator :=
  { pm with subPathStateMap := (replaceLeafList cmsIdx state pm.subPathStateMap 0).1 }

/-- `PathMutator.reverseSubPath(subIdx)` (PathMutator.ts lines 51–56): resolve
the sub-path and store it back with the reversal flag toggled.  `none` models
the indexing fault the source would hit on an unresolvable index. -/
def PathMutator.reverseSubPath (pm : PathMutator) (subIdx : ℕ) : Option PathMutator :=
  match pm.subPathOrdering.get? subIdx with
  | none => none
  | some cmsIdx =>
    match pm.findSubPathState cmsIdx with
    | none => none
    | some sps => some (pm.setSubPathState sps.reverse cmsIdx)

/-- Modelled from the spec: `MathUtil.floorMod` — the least non-negative
residue; for a positive divisor this is Lean's `Int.emod`. -/
def floorMod (num den : ℤ) : ℤ := num % den

/-- The private `PathMutator.shift` (PathMutator.ts lines 78–93): a sub-path
with at most one command is returned unchanged, otherwise the shift offset is
recomputed by `calcOffsetFn`. -/
def PathMutator.shift (pm : PathMutator) (subIdx : ℕ) (calcOffsetFn : ℕ → ℕ → ℕ) :
    Option PathMutator :=
  match pm.subPathOrdering.get? subIdx with
  | none => none
  | some cmsIdx =>
    match pm.findSubPathState cmsIdx with
    | none => none
    | some sps =>
      let n := numCommandsInSubPath sps
      if n ≤ 1 then some pm
      else some (pm.setSubPathState (sps.setShiftOffset (calcOffsetFn sps.shiftOffset n)) cmsIdx)

/-- `PathMutator.shiftSubPathBack(subIdx, numShifts)`. -/
def PathMutator.shiftSubPathBack (pm : PathMutator) (subIdx : ℕ) (numShifts : ℕ) :
    Option PathMutator :=
  match pm.subPathOrdering.get? subIdx with
  | none => none
  | some cmsIdx =>
    match pm.findSubPathState cmsIdx with
    | none => none
    | some sps =>
      if sps.isReversed then
        pm.shift subIdx fun o n => (o + numShifts) % (n - 1)
      else
        pm.shift subIdx fun o n => (floorMod ((o : ℤ) - (numShifts : ℤ)) ((n : ℤ) - 1)).toNat

/-- `PathMutator.shiftSubPathForward(subIdx, numShifts)`. -/
def PathMutator.shiftSubPathForward (pm : PathMutator) (subIdx : ℕ) (numShifts : ℕ) :
    Option PathMutator :=
  match pm.subPathOrdering.get? subIdx with
  | none => none
  | some cmsIdx =>
    match pm.findSubPathState cmsIdx with
    | none => none
    | some sps =>
      if sps.isReversed then
        pm.shift subIdx fun o n => (floorMod ((o : ℤ) - (numShifts : ℤ)) ((n : ℤ) - 1)).toNat
      else
        pm.shift subIdx fun o n => (o + numShifts) % (n - 1)

/-- The result of `PathMutator.findCommandStateInfo`. -/
structure CmInfo where
  targetCm : CommandState
  cmsIdx : ℕ
  cmIdx : ℕ
  splitIdx : ℕ

/-- The scan at the end of `findCommandStateInfo`: accumulate command counts
until the command state owning the adjusted command index is found. -/
def scanCommandStates : List CommandState → ℤ → ℤ → ℕ → Option (CommandState × ℕ × ℤ)
  | [], _, _, _ => none
  | cm :: rest, target, counter, cmIdx =>
    if counter + cm.commands.length > target then some (cm, cmIdx, target - counter)
    else scanCommandStates rest target (counter + cm.commands.length) (cmIdx + 1)

/-- `PathMutator.findCommandStateInfo(subIdx, cmdIdx)` (PathMutator.ts lines
468–492): resolve the visible indices into the owning command state, its leaf
index, its position in the sub-path, and the local split index.  Index
arithmetic is over ℤ to mirror the source's unchecked number arithmetic; the
final split index is the non-negative scan remainder. -/
def PathMutator.findCommandStateInfo (pm : PathMutator) (subIdx cmdIdx : ℕ) : Option CmInfo :=
  match pm.subPathOrdering.get? subIdx with
  | none => none
  | some cmsIdx =>
    match pm.findSubPathState cmsIdx with
    | none => none
    | some sps =>
      let n : ℤ := numCommandsInSubPath sps
      let c1 : ℤ := if cmdIdx ≠ 0 ∧ sps.isReversed then n - (cmdIdx : ℤ) else (cmdIdx : ℤ)
      let c2 : ℤ := c1 + (sps.shiftOffset : ℤ)
      let c3 : ℤ := if c2 ≥ n then c2 - (n - 1) else c2
      match scanCommandStates sps.commandStates c3 0 0 with
      | none => none
      | some (cm, cmIdx0, sIdx) => some ⟨cm, cmsIdx, cmIdx0, sIdx.toNat⟩

/-- `PathMutator.getUpdatedShiftOffsetsAfterSplit(cmsIdx, cmIdx, numSplits)`
(PathMutator.ts lines 139–145): bump the shift offset by the number of splits
exactly when it is non-zero and the resolved command-state position is at or
before it. -/
def PathMutator.getUpdatedShiftOffsetsAfterSplit (pm : PathMutator)
    (cmsIdx cmIdx numSplits : ℕ) : ℕ :=
  match pm.findSubPathState cmsIdx with
  | none => 0
  | some sps =>
    if sps.shiftOffset ≠ 0 ∧ cmIdx ≤ sps.shiftOffset then sps.shiftOffset + numSplits
    else sps.shiftOffset

/-- `PathMutator.splitCommand(subIdx, cmdIdx, ...ts)` (PathMutator.ts lines
98–113).  `none` models the `Must specify at least one t value` error and the
indexing faults on unresolvable indices. -/
def PathMutator.splitCommand (pm : PathMutator) (subIdx cmdIdx : ℕ)
    (tsIds : List (ℚ × ℕ)) : Option PathMutator :=
  if tsIds.isEmpty then none
  else
    match pm.findCommandStateInfo subIdx cmdIdx with
    | none => none
    | some info =>
      match pm.findSubPathState info.cmsIdx with
      | none => none
      | some sps =>
        let shiftOffset := pm.getUpdatedShiftOffsetsAfterSplit info.cmsIdx info.cmIdx tsIds.length
        some (pm.setSubPathState
          ((sps.setShiftOffset shiftOffset).setCommandState
            (info.targetCm.mutate.splitAtIndex info.splitIdx tsIds).build info.cmIdx)
          info.cmsIdx)

/-- `PathMutator.splitCommandInHalf(subIdx, cmdIdx)` (PathMutator.ts lines
118–130). -/
def PathMutator.splitCommandInHalf (pm : PathMutator) (subIdx cmdIdx : ℕ) (newId : ℕ) :
    Option PathMutator :=
  match pm.findCommandStateInfo subIdx cmdIdx with
  | none => none
  | some info =>
    match pm.findSubPathState info.cmsIdx with
    | none => none
    | some sps =>
      let shiftOffset := pm.getUpdatedShiftOffsetsAfterSplit info.cmsIdx info.cmIdx 1
      some (pm.setSubPathState
        ((sps.setShiftOffset shiftOffset).setCommandState
          (info.targetCm.mutate.splitInHalfAtIndex info.splitIdx newId).build info.cmIdx)
        info.cmsIdx)

/-- A placeholder built command, used as the (never legitimately reached)
`List.getD` fallback where the source would index past an array. -/
def junkBuiltCmd : BuiltCmd := ⟨0, 0, SvgChar.L, 0, false, ⟨0, 0⟩⟩

/-- `PathMutator.splitStrokedSubPath(subIdx, cmdIdx)` (PathMutator.ts lines
251–293): fork the owning command state at the split index, keep the left half
with the preceding command states, start the second half with a degenerate
seam moveto at the split point (`newCommand('M', [splitPoint, splitPoint])`,
modelled from the spec as a fresh point-calculator command state, a fresh id),
drop the right half when it has no commands, wrap the two halves into two new
leaf children of the (now internal) node, and append one entry to the visible
ordering. -/
def PathMutator.splitStrokedSubPath (pm : PathMutator) (subIdx cmdIdx : ℕ)
    (seamId id1 id2 : ℕ) : Option PathMutator :=
  match pm.findCommandStateInfo subIdx cmdIdx with
  | none => none
  | some info =>
    match pm.findSubPathState info.cmsIdx with
    | none => none
    | some sps =>
      match sps.commandStates.get? info.cmIdx with
      | none => none
      | some target =>
        let splitPoint := (target.commands.getD info.splitIdx junkBuiltCmd).endPt
        let lr := target.fork info.splitIdx
        let seamCmd : Cmd := ⟨SvgChar.M, [some splitPoint, some splitPoint], seamId, false⟩
        let seam := CommandState.fresh seamCmd (pointCalculator splitPoint)
        let startCommandStates := sps.commandStates.take info.cmIdx ++ [lr.1]
        let endCommandStates :=
          seam :: ((if lr.2.commands.length ≠ 0 then [lr.2] else []) ++
            sps.commandStates.drop (info.cmIdx + 1))
        let child1 := ((sps.setCommandStates startCommandStates).setSplitSubPaths []).setId id1
        let child2 := ((sps.setCommandStates endCommandStates).setSplitSubPaths []).setId id2
        some { pm.setSubPathState (sps.setSplitSubPaths [child1, child2]) info.cmsIdx with
          subPathOrdering := pm.subPathOrdering ++ [pm.subPathOrdering.length] }

/-- The JS array assignment `pts[0] = v`: overwrite the first entry, or extend
an empty array to `[v]`. -/
def setFirstPoint (pts : List (Option Pt)) (v : Option Pt) : List (Option Pt) :=
  match pts with
  | [] => [v]
  | _ :: rest => v :: rest

/-- The continuity repair at the end of `PathMutator.build()` (PathMutator.ts
lines 447–458), applied to the flattened, reordered command list: the first
command's start point is cleared via `setPoints(undefined, cmd.getEnd())`, and
every later command's first point is overwritten with the previous (already
repaired) command's end point.  The fold's accumulator is the repaired prefix,
so `acc.getLast?` is `reorderedCommands[i - 1]` and an empty accumulator marks
index `0`. -/
def repairContinuity (cmds : List Cmd) : List Cmd :=
  cmds.foldl
    (fun acc cmd =>
      match acc.getLast? with
      | none =>
        match cmd.getStart with
        | some _ => acc ++ [{ cmd with points := [none, cmd.getEnd] }]
        | none => acc ++ [cmd]
      | some prev => acc ++ [{ cmd with points := setFirstPoint cmd.points prev.getEnd }])
    []

/-- Ordering of mutations by parameter value. -/
def MutLE (a b : Mutation) : Prop := a.t ≤ b.t

instance : DecidableRel MutLE := fun a b => inferInstanceAs (Decidable (a.t ≤ b.t))

instance : IsTotal Mutation MutLE := ⟨fun a b => le_total a.t b.t⟩

instance : IsTrans Mutation MutLE := ⟨fun _ _ _ => le_trans⟩

/-- The mutation-list invariant a command state maintains: mutations sorted
ascending by `t`, every `t` within `[minT, maxT]`, the last mutation (when one
exists) at exactly `maxT`, and — for a closepath-backed command — no
non-terminal mutation of closepath kind. -/
def MutationInvariant (cs : CommandState) : Prop :=
  List.Sorted MutLE cs.mutations ∧
  (∀ m ∈ cs.mutations, cs.minT ≤ m.t ∧ m.t ≤ cs.maxT) ∧
  (∀ m, cs.mutations.getLast? = some m → m.t = cs.maxT) ∧
  (cs.backingCommand.svgChar = SvgChar.Z →
    ∀ m ∈ cs.mutations.dropLast, m.svgChar ≠ SvgChar.Z) ∧
  cs.minT ≤ cs.maxT

/-- The parameter `splitInHalfAtIndex` actually inserts:
`findTimeByDistance(lerp(startSplit, endSplit, 0.5))` — `findTimeByDistance`
applied to the parametric midpoint of the bounded range. -/
def halfSplitParam (cs : CommandState) (splitIdx : ℕ) : ℚ :=
  let temp := tempSplits cs.minT cs.mutations
  cs.calculator.findTimeByDistance (lerp (temp.getD splitIdx 0) (temp.getD (splitIdx + 1) 0) (1 / 2))

/-- The split parameter claim C5 describes: `findTimeByDistance` applied to the
arc-length midpoint of the range bounded by the split boundaries flanking
`splitIdx` (the distance halfway between the arc lengths of the two
boundaries). -/
def claimedHalfParam (cs : CommandState) (splitIdx : ℕ) : ℚ :=
  let temp := tempSplits cs.minT cs.mutations
  cs.calculator.findTimeByDistance
    ((cs.calculator.arcLengthUpTo (temp.getD splitIdx 0) +
      cs.calculator.arcLengthUpTo (temp.getD (splitIdx + 1) 0)) / 2)

/-- The round trip of claim C3: split one command at local parameter `t` of
split range `i`, rebuild, then unsplit at `i` and rebuild. -/
def CommandState.splitUnsplitRoundTrip (cs : CommandState) (i : ℕ) (t : ℚ) (newId : ℕ) :
    CommandState :=
  (cs.splitAtIndexOp i [(t, newId)]).unsplitAtIndexOp i

/-- Command states reachable through the public mutation operations, applied
with arguments satisfying their documented contracts: split indices in range,
split parameters in `[0, 1]`, `splitInHalfAtIndex` under a calculator whose
`findTimeByDistance` answer stays inside the represented range, unsplits at
non-terminal indices, conversions to non-closepath kinds, forks at in-range
indices, merges of adjacent fork halves of one backing command (the only
merges the sub-path unsplit algorithm performs), and reverts of states that
still have a mutation. -/
inductive Reach : CommandState → Prop where
  | init (backing : Cmd) (cal : Calculator) : Reach (CommandState.fresh backing cal)
  | splitAt {cs : CommandState} (h : Reach cs) (i : ℕ) (tsIds : List (ℚ × ℕ))
      (hi : i < cs.mutations.length)
      (hts : ∀ p ∈ tsIds, 0 ≤ p.1 ∧ p.1 ≤ 1) :
      Reach (cs.splitAtIndexOp i tsIds)
  | splitInHalf {cs : CommandState} (h : Reach cs) (i : ℕ) (newId : ℕ)
      (hi : i < cs.mutations.length)
      (hfd : cs.minT ≤ halfSplitParam cs i ∧ halfSplitParam cs i ≤ cs.maxT) :
      Reach (cs.splitInHalfAtIndexOp i newId)
  | unsplit {cs : CommandState} (h : Reach cs) (i : ℕ) (hi : i + 1 < cs.mutations.length) :
      Reach (cs.unsplitAtIndexOp i)
  | convert {cs : CommandState} (h : Reach cs) (i : ℕ) (c : SvgChar)
      (hi : i < cs.mutations.length) (hc : c ≠ SvgChar.Z) :
      Reach (cs.convertAtIndexOp i c)
  | unconvert {cs : CommandState} (h : Reach cs) : Reach cs.unconvertSubpathOp
  | forkL {cs : CommandState} (h : Reach cs) (i : ℕ) (hi : i < cs.mutations.length) :
      Reach (cs.fork i).1
  | forkR {cs : CommandState} (h : Reach cs) (i : ℕ) (hi : i < cs.mutations.length) :
      Reach (cs.fork i).2
  | mergeAdj {cs other : CommandState} (h : Reach cs) (ho : Reach other)
      (hb : other.backingCommand = cs.backingCommand)
      (hne : other.mutations ≠ [])
      (hmin : other.minT = cs.maxT)
      (hlt : cs.maxT < other.maxT)
      (hzs : cs.backingCommand.svgChar = SvgChar.Z →
        ∀ m ∈ cs.mutations, m.svgChar ≠ SvgChar.Z)
      (hzd : cs.backingCommand.svgChar = SvgChar.Z →
        ∀ m ∈ other.mutations.dropLast, m.t ≠ other.maxT) :
      Reach (cs.mergeOp other)
  | revert {cs cs2 : CommandState} (h : Reach cs) (hr : cs.revertOp = some cs2) : Reach cs2

/-- Concrete points and commands for the witness and counterexample states.
All segments are degenerate (zero length), for which `newCalculator` yields
the `PointCalculator` embedded above from the source. -/
def ptO : Pt := ⟨0, 0⟩

def moveCmdO : Cmd := ⟨SvgChar.M, [some ptO, some ptO], 100, false⟩

def lineCmdO : Cmd := ⟨SvgChar.L, [some ptO, some ptO], 101, false⟩

/-- A freshly decoded moveto-backed command state. -/
def csMoveEx : CommandState := CommandState.fresh moveCmdO (pointCalculator ptO)

/-- A freshly decoded (degenerate) lineto-backed command state. -/
def csLineEx : CommandState := CommandState.fresh lineCmdO (pointCalculator ptO)

/-- The line command state split once at `t = 1/2` (the state
`csLineEx.splitAtIndexOp 0 [(1/2, 102)]`, written out literally): mutations at
`1/2` and `1`. -/
def csLineSplitEx : CommandState where
  backingCommand := lineCmdO
  commands := buildCommandsAux (pointCalculator ptO) 0
    [⟨102, 1/2, SvgChar.L⟩, ⟨101, 1, SvgChar.L⟩]
  mutations := [⟨102, 1/2, SvgChar.L⟩, ⟨101, 1, SvgChar.L⟩]
  calculator := pointCalculator ptO
  minT := 0
  maxT := 1

/-- Claim C2's example state: mutations at `t = [0.3, 0.7, 1.0]`. -/
def csC2Ex : CommandState where
  backingCommand := lineCmdO
  commands := buildCommandsAux (pointCalculator ptO) 0
    [⟨111, 3/10, SvgChar.L⟩, ⟨112, 7/10, SvgChar.L⟩, ⟨101, 1, SvgChar.L⟩]
  mutations := [⟨111, 3/10, SvgChar.L⟩, ⟨112, 7/10, SvgChar.L⟩, ⟨101, 1, SvgChar.L⟩]
  calculator := pointCalculator ptO
  minT := 0
  maxT := 1

/-- A raw calculator projection at parameter `1/2`. -/
def prC2Ex : ProjectionResult := ⟨0, 0, 1/2, 3⟩

/-- Merge witness states with overlapping mutation ids (both contain id `102`). -/
def csMergeLeftEx : CommandState where
  backingCommand := lineCmdO
  commands := buildCommandsAux (pointCalculator ptO) 0 [⟨102, 0, SvgChar.L⟩, ⟨101, 1, SvgChar.L⟩]
  mutations := [⟨102, 0, SvgChar.L⟩, ⟨101, 1, SvgChar.L⟩]
  calculator := pointCalculator ptO
  minT := 0
  maxT := 1

def csMergeRightEx : CommandState where
  backingCommand := lineCmdO
  commands := buildCommandsAux (pointCalculator ptO) 0 [⟨102, 1, SvgChar.L⟩, ⟨103, 1, SvgChar.L⟩]
  mutations := [⟨102, 1, SvgChar.L⟩, ⟨103, 1, SvgChar.L⟩]
  calculator := pointCalculator ptO
  minT := 0
  maxT := 1

/-- Single command states over degenerate segments, building blocks for the
concrete sub-paths below. -/
def csM0 : CommandState := CommandState.fresh ⟨SvgChar.M, [some ptO, some ptO], 200, false⟩ (pointCalculator ptO)

def csL1 : CommandState := CommandState.fresh ⟨SvgChar.L, [some ptO, some ptO], 201, false⟩ (pointCalculator ptO)

def csL2 : CommandState := CommandState.fresh ⟨SvgChar.L, [some ptO, some ptO], 202, false⟩ (pointCalculator ptO)

def csL3 : CommandState := CommandState.fresh ⟨SvgChar.L, [some ptO, some ptO], 203, false⟩ (pointCalculator ptO)

/-- A four-command open sub-path (the spec's `splitStrokedSubPath` scenario). -/
def spsOpen4Ex : SubPathState := .mk [csM0, csL1, csL2, csL3] [] 0 false 50

def pmOpen4Ex : PathMutator := ⟨[spsOpen4Ex], [0], 0⟩

/-- A four-command sub-path with a non-zero shift offset. -/
def spsShiftEx : SubPathState := .mk [csM0, csL1, csL2, csL3] [] 1 false 51

def pmShiftEx : PathMutator := ⟨[spsShiftEx], [0], 0⟩

/-- A single-command sub-path. -/
def spsSingleEx : SubPathState := .mk [csM0] [] 0 false 52

def pmSingleEx : PathMutator := ⟨[spsSingleEx], [0], 0⟩

/-- Claim C10: for a moveto-backed command state, the split operations leave
the mutation list and the represented range untouched and signal no error:
both `splitAtIndex` and `splitInHalfAtIndex` return with `mutations`, `minT`
and `maxT` unchanged. -/
theorem split_on_move_backed_is_noop (cs : CommandState) (splitIdx : ℕ)
    (tsIds : List (ℚ × ℕ)) (newId : ℕ)
    (hM : cs.backingCommand.svgChar = SvgChar.M) :
    ((cs.splitAtIndexOp splitIdx tsIds).mutations = cs.mutations ∧
      (cs.splitAtIndexOp splitIdx tsIds).minT = cs.minT ∧
      (cs.splitAtIndexOp splitIdx tsIds).maxT = cs.maxT) ∧
    ((cs.splitInHalfAtIndexOp splitIdx newId).mutations = cs.mutations ∧
      (cs.splitInHalfAtIndexOp splitIdx newId).minT = cs.minT ∧
      (cs.splitInHalfAtIndexOp splitIdx newId).maxT = cs.maxT) := by
  constructor
  · simp [CommandState.splitAtIndexOp, CommandStateMutator.splitAtIndex,
      CommandStateMutator.split, CommandStateMutator.build, CommandState.mutate, hM]
  · simp [CommandState.splitInHalfAtIndexOp, CommandStateMutator.splitInHalfAtIndex,
      CommandStateMutator.split, CommandStateMutator.build, CommandState.mutate, hM]

/-- Witness for C10: a concrete moveto-backed command state is unchanged by a
split at `t = 1/2`. -/
theorem split_on_move_backed_is_noop_witness :
    ((CommandState.fresh ⟨SvgChar.M, [some ⟨0, 0⟩, some ⟨1, 1⟩], 0, false⟩
        (pointCalculator ⟨1, 1⟩)).splitAtIndexOp 0 [(1/2, 7)]).mutations =
      (CommandState.fresh ⟨SvgChar.M, [some ⟨0, 0⟩, some ⟨1, 1⟩], 0, false⟩
        (pointCalculator ⟨1, 1⟩)).mutations :=
  (split_on_move_backed_is_noop
    (CommandState.fresh ⟨SvgChar.M, [some ⟨0, 0⟩, some ⟨1, 1⟩], 0, false⟩
      (pointCalculator ⟨1, 1⟩)) 0 [(1/2, 7)] 7 rfl).1.1

/-- The sum of `0/1` indicators over a list equals the length of its filtrate
(the lodash `map(...).sum()` chain in `project` counts the mutations below the
raw parameter). -/
theorem sum_ite_eq_length_filter (l : List Mutation) (x : ℚ) :
    ((l.map fun m => if m.t < x then 1 else 0).sum : ℕ) =
      (l.filter fun m => m.t < x).length := by
  induction l with
  | nil => simp
  | cons a l ih =>
    by_cases h : a.t < x
    · simp [h, ih]
      omega
    · simp [h, ih]

/-- Inserting at the sorted-insertion index is Mathlib's `orderedInsert`. -/
theorem insertMutation_eq_orderedInsert (ms : List Mutation) (m0 : Mutation) :
    insertMutation ms m0 = ms.orderedInsert MutLE m0 := by
  induction ms with
  | nil => rfl
  | cons b l ih =>
    by_cases h : b.t < m0.t
    · have hr : ¬ MutLE m0 b := not_le.mpr h
      rw [List.orderedInsert, if_neg hr, ← ih]
      simp [insertMutation, sortedInsertionIdx, List.takeWhile_cons, h,
        List.insertIdx_succ_cons]
    · have hr : MutLE m0 b := not_lt.mp h
      rw [List.orderedInsert, if_pos hr]
      simp [insertMutation, sortedInsertionIdx, List.takeWhile_cons, h, List.insertIdx_zero]

theorem insertMutation_perm (ms : List Mutation) (m0 : Mutation) :
    (insertMutation ms m0).Perm (m0 :: ms) := by
  rw [insertMutation_eq_orderedInsert]
  exact List.perm_orderedInsert _ _ _

theorem foldl_insertMutation_perm (bs : List Mutation) :
    ∀ ms : List Mutation, (bs.foldl insertMutation ms).Perm (ms ++ bs) := by
  induction bs with
  | nil => intro ms; simp
  | cons b bs ih =>
    intro ms
    exact ((ih (insertMutation ms b)).trans
      (((insertMutation_perm ms b).append_right bs))).trans List.perm_middle.symm

theorem foldl_insertMutation_sorted (bs : List Mutation) :
    ∀ ms : List Mutation, List.Sorted MutLE ms →
      List.Sorted MutLE (bs.foldl insertMutation ms) := by
  induction bs with
  | nil => intro ms h; exact h
  | cons b bs ih =>
    intro ms h
    refine ih _ ?_
    rw [insertMutation_eq_orderedInsert]
    exact List.Sorted.orderedInsert b ms h

/-- Claim C2: `project(point)` returns as `splitIdx` the number of mutations
whose `t` lies strictly below the raw projected parameter, and remaps the raw
`t` affinely into the range bounded by the boundaries
`[minT, ...mutation ts]` flanking that index (`0` for a zero-width range); the
projected coordinate and distance pass through unchanged. -/
theorem projectRaw_counts_below_and_remaps (cs : CommandState) (pr : ProjectionResult)
    (hk : (cs.mutations.filter fun m => m.t < pr.t).length + 1 <
      (tempSplits cs.minT cs.mutations).length) :
    (cs.projectRaw pr).2 = (cs.mutations.filter fun m => m.t < pr.t).length ∧
    (cs.projectRaw pr).1.t =
      (if (tempSplits cs.minT cs.mutations).get
            ⟨(cs.mutations.filter fun m => m.t < pr.t).length, by omega⟩ =
          (tempSplits cs.minT cs.mutations).get
            ⟨(cs.mutations.filter fun m => m.t < pr.t).length + 1, hk⟩
        then 0
        else (pr.t - (tempSplits cs.minT cs.mutations).get
            ⟨(cs.mutations.filter fun m => m.t < pr.t).length, by omega⟩) /
          ((tempSplits cs.minT cs.mutations).get
            ⟨(cs.mutations.filter fun m => m.t < pr.t).length + 1, hk⟩ -
          (tempSplits cs.minT cs.mutations).get
            ⟨(cs.mutations.filter fun m => m.t < pr.t).length, by omega⟩)) ∧
    (cs.projectRaw pr).1.x = pr.x ∧ (cs.projectRaw pr).1.y = pr.y ∧
    (cs.projectRaw pr).1.d = pr.d := by
  have hcount : ((cs.mutations.map fun m => if m.t < pr.t then 1 else 0).sum : ℕ) =
      (cs.mutations.filter fun m => m.t < pr.t).length := sum_ite_eq_length_filter _ _
  have h1 : ((cs.mutations.filter fun m => m.t < pr.t).length : ℕ) <
      (tempSplits cs.minT cs.mutations).length := by omega
  refine ⟨?_, ?_, rfl, rfl, rfl⟩
  · simp [CommandState.projectRaw, hcount]
  · simp only [CommandState.projectRaw, hcount, List.getD_eq_getElem _ _ h1,
      List.getD_eq_getElem _ _ hk, List.get_eq_getElem]

/-- Witness for C2: mutations at `t = [3/10, 7/10, 1]` with a raw projection
at `t = 1/2` resolve to `splitIdx = 1` and remapped `t = 1/2`. -/
theorem projectRaw_counts_below_and_remaps_witness :
    (csC2Ex.projectRaw prC2Ex).2 = 1 ∧ (csC2Ex.projectRaw prC2Ex).1.t = 1/2 := by
  have h := projectRaw_counts_below_and_remaps csC2Ex prC2Ex
    (by norm_num [csC2Ex, prC2Ex, tempSplits, List.filter])
  refine ⟨h.1.trans ?_, ?_⟩
  · norm_num [csC2Ex, prC2Ex, List.filter]
  · norm_num [csC2Ex, prC2Ex, CommandState.projectRaw, tempSplits, List.filter]

/-- Point assignment used by the repair always makes `v` the first entry. -/
theorem setFirstPoint_head (pts : List (Option Pt)) (v : Option Pt) :
    (setFirstPoint pts v).head? = some v := by
  cases pts <;> rfl

/-- Claim C1: after the continuity repair of `build()`, the first output
command has no start point and every later command's first point equals the
previous output command's end point, regardless of the points previously
stored in the input commands. -/
theorem repairContinuity_clears_first_and_links (cmds : List Cmd) :
    (∀ c0, (repairContinuity cmds).head? = some c0 → c0.getStart = none) ∧
    List.Chain' (fun a b => b.points.head? = some a.getEnd) (repairContinuity cmds) := by
  suffices h : ∀ acc : List Cmd,
      (∀ c0, acc.head? = some c0 → c0.getStart = none) →
      List.Chain' (fun a b => b.points.head? = some a.getEnd) acc →
      (∀ c0, (cmds.foldl
          (fun acc cmd =>
            match acc.getLast? with
            | none =>
              match cmd.getStart with
              | some _ => acc ++ [{ cmd with points := [none, cmd.getEnd] }]
              | none => acc ++ [cmd]
            | some prev => acc ++ [{ cmd with points := setFirstPoint cmd.points prev.getEnd }])
          acc).head? = some c0 → c0.getStart = none) ∧
      List.Chain' (fun a b => b.points.head? = some a.getEnd)
        (cmds.foldl
          (fun acc cmd =>
            match acc.getLast? with
            | none =>
              match cmd.getStart with
              | some _ => acc ++ [{ cmd with points := [none, cmd.getEnd] }]
              | none => acc ++ [cmd]
            | some prev => acc ++ [{ cmd with points := setFirstPoint cmd.points prev.getEnd }])
          acc) by
    exact h [] (by intro c0 hc; cases hc) List.chain'_nil
  induction cmds with
  | nil => intro acc h1 h2; exact ⟨h1, h2⟩
  | cons cmd rest ih =>
    intro acc h1 h2
    simp only [List.foldl_cons]
    rcases hacc : acc.getLast? with - | prev
    · have haccnil : acc = [] := List.getLast?_eq_none_iff.mp hacc
      subst haccnil
      rcases hst : cmd.getStart with - | p
      · refine ih [cmd] ?_ (List.chain'_singleton _)
        intro c0 hc0
        cases hc0
        exact hst
      · refine ih [{ cmd with points := [none, cmd.getEnd] }] ?_ (List.chain'_singleton _)
        intro c0 hc0
        cases hc0
        rfl
    · have haccne : acc ≠ [] := by
        intro hnil
        rw [hnil] at hacc
        cases hacc
      refine ih _ ?_ ?_
      · intro c0 hc0
        apply h1 c0
        obtain ⟨a, as, rfl⟩ := List.exists_cons_of_ne_nil haccne
        simp only [List.cons_append, List.head?_cons] at hc0
        simpa using hc0
      · rw [List.chain'_append]
        refine ⟨h2, List.chain'_singleton _, ?_⟩
        intro x hx y hy
        rw [hacc] at hx
        cases hx
        cases hy
        exact setFirstPoint_head _ _

/-- Witness for C1: repairing a concrete two-command list clears the first
start point and links the second command's first point to the first command's
end point. -/
theorem repairContinuity_witness :
    (∀ c0, (repairContinuity [⟨SvgChar.M, [some ⟨5, 5⟩, some ⟨1, 1⟩], 0, false⟩,
        ⟨SvgChar.L, [some ⟨9, 9⟩, some ⟨2, 2⟩], 1, false⟩]).head? = some c0 →
      c0.getStart = none) ∧
    List.Chain' (fun a b => b.points.head? = some a.getEnd)
      (repairContinuity [⟨SvgChar.M, [some ⟨5, 5⟩, some ⟨1, 1⟩], 0, false⟩,
        ⟨SvgChar.L, [some ⟨9, 9⟩, some ⟨2, 2⟩], 1, false⟩]) :=
  repairContinuity_clears_first_and_links _

/-- Claim C6: `merge(other)` takes the union of the represented ranges and a
sorted union of the mutation lists; overlapping mutation ids only produce
diagnostics (`mergeWarningCount`), never a failure or a different result. -/
theorem merge_unions_ranges_and_mutations (a b : CommandState) :
    (a.mergeOp b).minT = min a.minT b.minT ∧
    (a.mergeOp b).maxT = max a.maxT b.maxT ∧
    (a.mergeOp b).mutations.Perm (a.mutations ++ b.mutations) ∧
    (List.Sorted MutLE a.mutations → List.Sorted MutLE (a.mergeOp b).mutations) :=
  ⟨rfl, rfl, foldl_insertMutation_perm _ _,
    fun h => foldl_insertMutation_sorted _ _ h⟩

/-- Witness for C6 at two states sharing mutation id `102`: exactly one
diagnostic is emitted, and the merge still returns the sorted union. -/
theorem merge_unions_ranges_and_mutations_witness :
    mergeWarningCount csMergeLeftEx.mutate csMergeRightEx = 1 ∧
    (csMergeLeftEx.mergeOp csMergeRightEx).mutations.Perm
      (csMergeLeftEx.mutations ++ csMergeRightEx.mutations) ∧
    List.Sorted MutLE (csMergeLeftEx.mergeOp csMergeRightEx).mutations :=
  ⟨by decide, (merge_unions_ranges_and_mutations csMergeLeftEx csMergeRightEx).2.2.1,
    (merge_unions_ranges_and_mutations csMergeLeftEx csMergeRightEx).2.2.2 (by decide)⟩

/-- Mapping commutes with insertion at a fixed index. -/
theorem map_insertIdx_ext {α β : Type} (f : α → β) :
    ∀ (l : List α) (n : ℕ) (a : α), (l.insertIdx n a).map f = (l.map f).insertIdx n (f a)
  | _, 0, _ => by simp
  | [], _ + 1, _ => by simp
  | b :: l, n + 1, a => by
    simp [List.insertIdx_succ_cons, map_insertIdx_ext f l n a]

/-- An index-aware rewrite that leaves an observation unchanged commutes out of
`mapIdx`. -/
theorem map_mapIdx_invariant {β : Type} (l : List Mutation) (f : ℕ → Mutation → Mutation)
    (g : Mutation → β) (h : ∀ i a, g (f i a) = g a) : (l.mapIdx f).map g = l.map g := by
  rw [List.mapIdx_eq_enum_map, List.map_map]
  have hfg : (g ∘ Function.uncurry f) = fun p : ℕ × Mutation => g p.2 :=
    funext fun p => h p.1 p.2
  rw [hfg, show (fun p : ℕ × Mutation => g p.2) = g ∘ Prod.snd from rfl, ← List.map_map,
    List.enum_map_snd]

theorem forceToLine_t (m : Mutation) : (forceToLine m).t = m.t := by
  unfold forceToLine
  split <;> rfl

theorem forceToLine_of_ne (m : Mutation) (h : m.svgChar ≠ SvgChar.Z) : forceToLine m = m :=
  if_neg h

theorem force_cons_of_ne_nil (m : Mutation) (l : List Mutation) (h : l ≠ []) :
    forceSplitClosepathToLine (m :: l) = forceToLine m :: forceSplitClosepathToLine l := by
  cases l with
  | nil => exact absurd rfl h
  | cons y ys => rfl

/-- Forcing non-terminal closepath kinds to lines never changes the parameter
values. -/
theorem map_t_forceSplitClosepathToLine (ms : List Mutation) :
    (forceSplitClosepathToLine ms).map (fun m => m.t) = ms.map fun m => m.t := by
  induction ms with
  | nil => rfl
  | cons m rest ih =>
    cases rest with
    | nil => rfl
    | cons y ys =>
      rw [force_cons_of_ne_nil _ _ (by simp), List.map_cons, List.map_cons, ih, forceToLine_t]

/-- Forcing is the identity on a list with no non-terminal closepath kind. -/
theorem force_eq_self (l : List Mutation)
    (h : ∀ m ∈ l.dropLast, m.svgChar ≠ SvgChar.Z) : forceSplitClosepathToLine l = l := by
  induction l with
  | nil => rfl
  | cons m rest ih =>
    cases rest with
    | nil => rfl
    | cons y ys =>
      rw [force_cons_of_ne_nil _ _ (by simp),
        forceToLine_of_ne m (h m (by simp [List.dropLast_cons₂])),
        ih fun m2 hm2 => h m2 (by simp [List.dropLast_cons₂, hm2])]

theorem force_append_of_ne_nil (A : List Mutation) :
    ∀ C : List Mutation, C ≠ [] →
      forceSplitClosepathToLine (A ++ C) = A.map forceToLine ++ forceSplitClosepathToLine C := by
  induction A with
  | nil => intro C _; rfl
  | cons a A ih =>
    intro C hC
    have hAC : A ++ C ≠ [] := fun hx => hC (List.append_eq_nil.mp hx).2
    rw [List.cons_append, force_cons_of_ne_nil _ _ hAC, ih C hC, List.map_cons,
      List.cons_append]

theorem insertIdx_eq_take_cons_drop (x : Mutation) :
    ∀ (l : List Mutation) (n : ℕ), n ≤ l.length →
      l.insertIdx n x = l.take n ++ x :: l.drop n
  | _, 0, _ => by simp
  | [], n + 1, h => by simp at h
  | b :: l, n + 1, h => by
    simp only [List.insertIdx_succ_cons, List.take_succ_cons, List.drop_succ_cons,
      List.cons_append, List.cons.injEq, true_and]
    exact insertIdx_eq_take_cons_drop x l n (by simpa using h)

/-- Elements of a strict prefix of a list lie in its `dropLast`. -/
theorem mem_dropLast_of_mem_take (l : List Mutation) (k : ℕ) (hk : k < l.length)
    (m : Mutation) (hm : m ∈ l.take k) : m ∈ l.dropLast := by
  rw [List.dropLast_eq_take]
  have hkk : l.take k = (l.take (l.length - 1)).take k := by
    rw [List.take_take, min_eq_left (by omega)]
  rw [hkk] at hm
  exact List.take_subset _ _ hm

/-- Inserting strictly before the end and then forcing only forces the
inserted element, provided the list had no non-terminal closepath kind. -/
theorem force_insertIdx (ms : List Mutation) (x : Mutation) (k : ℕ) (hk : k < ms.length)
    (hz : ∀ m ∈ ms.dropLast, m.svgChar ≠ SvgChar.Z) :
    forceSplitClosepathToLine (ms.insertIdx k x) = ms.insertIdx k (forceToLine x) := by
  have hkle : k ≤ ms.length := hk.le
  rw [insertIdx_eq_take_cons_drop x ms k hkle,
    insertIdx_eq_take_cons_drop (forceToLine x) ms k hkle]
  have hdropne : ms.drop k ≠ [] := by
    intro hx
    have := congrArg List.length hx
    simp at this
    omega
  rw [force_append_of_ne_nil _ _ (by simp), force_cons_of_ne_nil _ _ hdropne]
  have hdz : ∀ m ∈ (ms.drop k).dropLast, m.svgChar ≠ SvgChar.Z := by
    intro m hm
    apply hz
    rw [List.dropLast_eq_take] at hm ⊢
    rw [List.length_drop] at hm
    have hrw : (ms.drop k).take (ms.length - k - 1) = (ms.take (ms.length - 1)).drop k := by
      rw [List.drop_take]
      congr 1
      omega
    rw [hrw] at hm
    exact List.drop_subset _ _ hm
  rw [force_eq_self _ hdz]
  have htk : (ms.take k).map forceToLine = ms.take k :=
    (List.map_congr_left fun m hm =>
      forceToLine_of_ne m (hz m (mem_dropLast_of_mem_take ms k hk m hm))).trans
      (List.map_id' _)
  rw [htk]

/-- Characterization of the length of a `takeWhile` prefix. -/
theorem length_takeWhile_eq_of (p : Mutation → Bool) :
    ∀ (ms : List Mutation) (i : ℕ) (hi : i < ms.length),
      (∀ j (hj : j < i), p (ms.get ⟨j, lt_trans hj hi⟩) = true) →
      p (ms.get ⟨i, hi⟩) = false →
      (ms.takeWhile p).length = i
  | [], i, hi, _, _ => by simp at hi
  | m :: rest, 0, _, _, h2 => by
    simp only [List.get] at h2
    simp [List.takeWhile_cons, h2]
  | m :: rest, i + 1, hi, h1, h2 => by
    have hm : p m = true := h1 0 (by omega)
    rw [List.takeWhile_cons, hm]
    simp only [if_true, List.length_cons]
    have := length_takeWhile_eq_of p rest i (by simpa using hi)
      (fun j hj => h1 (j + 1) (by omega)) (by simpa using h2)
    omega

/-- The geometric content of a build depends only on the parameter values and
kinds of the mutations (the ids and the calculator do not enter). -/
theorem geom_eq_of_map_tc_eq (cal1 cal2 : Calculator) :
    ∀ (t0 : ℚ) (ms1 ms2 : List Mutation),
      ms1.map (fun m => (m.t, m.svgChar)) = ms2.map (fun m => (m.t, m.svgChar)) →
      (buildCommandsAux cal1 t0 ms1).map BuiltCmd.geom =
        (buildCommandsAux cal2 t0 ms2).map BuiltCmd.geom
  | _, [], [], _ => rfl
  | _, [], _ :: _, h => by simp at h
  | _, _ :: _, [], h => by simp at h
  | t0, m1 :: r1, m2 :: r2, h => by
    simp only [List.map_cons, List.cons.injEq, Prod.mk.injEq] at h
    obtain ⟨⟨ht, hc⟩, hrest⟩ := h
    simp only [buildCommandsAux, List.map_cons, BuiltCmd.geom, ht, hc, List.cons.injEq,
      true_and]
    have := geom_eq_of_map_tc_eq cal1 cal2 m2.t r1 r2 hrest
    rw [← ht] at this ⊢
    exact this

/-- The private `split` never touches the backing command, calculator or
represented range. -/
theorem split_preserves_frame (mu : CommandStateMutator) (tsIds : List (ℚ × ℕ)) :
    (mu.split tsIds).backingCommand = mu.backingCommand ∧
    (mu.split tsIds).calculator = mu.calculator ∧
    (mu.split tsIds).minT = mu.minT ∧ (mu.split tsIds).maxT = mu.maxT := by
  unfold CommandStateMutator.split
  split <;> exact ⟨rfl, rfl, rfl, rfl⟩

/-- Claim C5 (amended): for a command state whose backing command is not a
moveto and a valid split index, `splitInHalfAtIndex` inserts exactly one new
mutation, whose parameter is `findTimeByDistance` applied to the parametric
midpoint `lerp(startSplit, endSplit, 1/2)` of the bounded range (the midpoint
of the flanking parameter values passed as the distance argument) — stated as:
the new parameter list is the old one with exactly that value inserted at its
sorted position. -/
theorem splitInHalf_inserts_parametric_midpoint_param (cs : CommandState) (i newId : ℕ)
    (hM : cs.backingCommand.svgChar ≠ SvgChar.M) (_hi : i < cs.mutations.length) :
    (cs.splitInHalfAtIndexOp i newId).mutations.map (fun m => m.t) =
      (cs.mutations.map fun m => m.t).insertIdx
        (sortedInsertionIdx cs.mutations (halfSplitParam cs i)) (halfSplitParam cs i) := by
  unfold CommandState.splitInHalfAtIndexOp CommandStateMutator.splitInHalfAtIndex
    CommandStateMutator.split
  rw [if_neg (by simp [CommandState.mutate, hM])]
  simp only [CommandState.mutate, CommandStateMutator.build, List.foldl_cons, List.foldl_nil]
  rw [map_t_forceSplitClosepathToLine]
  unfold insertMutation
  rw [map_insertIdx_ext]
  rfl

/-- Witness for the amended C5 at the concrete degenerate-line state. -/
theorem splitInHalf_inserts_parametric_midpoint_param_witness :
    (csLineSplitEx.splitInHalfAtIndexOp 1 103).mutations.map (fun m => m.t) =
      (csLineSplitEx.mutations.map fun m => m.t).insertIdx
        (sortedInsertionIdx csLineSplitEx.mutations (halfSplitParam csLineSplitEx 1))
        (halfSplitParam csLineSplitEx 1) :=
  splitInHalf_inserts_parametric_midpoint_param csLineSplitEx 1 103 (by decide) (by decide)

/-- Claim C5 counterexample: on the degenerate-line command state with
mutations at `t = [1/2, 1]` (whose `PointCalculator` reports every arc length
as `0`), `splitInHalfAtIndex(1)` inserts the parameter `3/4` — the
`findTimeByDistance` image of the parametric midpoint — whereas
`findTimeByDistance` at the arc-length midpoint of the bounded range is `0`,
so the claim's description of the inserted parameter is false here. -/
theorem splitInHalf_arclength_midpoint_counterexample :
    (csLineSplitEx.splitInHalfAtIndexOp 1 103).mutations.map (fun m => m.t) = [1/2, 3/4, 1] ∧
    claimedHalfParam csLineSplitEx 1 = 0 ∧ ¬ ((3 : ℚ)/4 = 0) := by
  refine ⟨?_, ?_, by norm_num⟩
  · unfold CommandState.splitInHalfAtIndexOp CommandStateMutator.splitInHalfAtIndex
      CommandStateMutator.split
    rw [if_neg (by simp [CommandState.mutate, csLineSplitEx, lineCmdO])]
    simp only [CommandState.mutate, CommandStateMutator.build, List.foldl_cons, List.foldl_nil]
    rw [map_t_forceSplitClosepathToLine]
    unfold insertMutation
    rw [map_insertIdx_ext]
    norm_num [csLineSplitEx, sortedInsertionIdx, tempSplits, lerp, pointCalculator,
      List.takeWhile, List.insertIdx]
  · norm_num [claimedHalfParam, csLineSplitEx, tempSplits, pointCalculator]

/-- Claim C3 counterexample: for a moveto-backed command state the split is a
silent no-op, so the split–unsplit round trip deletes the only mutation and
returns an empty command list, which is not geometrically equal to the
original single-command list. -/
theorem split_unsplit_roundtrip_counterexample :
    ¬ (csMoveEx.splitUnsplitRoundTrip 0 (1/2) 103).geom = csMoveEx.geom := by
  simp [CommandState.splitUnsplitRoundTrip, CommandState.splitAtIndexOp,
    CommandState.unsplitAtIndexOp, CommandStateMutator.splitAtIndex, CommandStateMutator.split,
    CommandStateMutator.unsplitAtIndex, CommandStateMutator.build, CommandState.mutate,
    csMoveEx, moveCmdO, CommandState.fresh, CommandState.geom, buildCommandsAux]

/-- Claim C3 (amended): for a command state whose backing command is not a
moveto (splitting a moveto is a silent no-op, so the round trip would drop a
command), whose split boundaries `[minT, ...mutation t values]` are strictly
increasing, which carries no non-terminal closepath kind, and whose command
list is in built form, `mutate().splitAtIndex(i, [t]).build()` followed by
`mutate().unsplitAtIndex(i).build()` yields a command list geometrically equal
to the original, for every valid index `i` and `t ∈ [0, 1]`. -/
theorem split_unsplit_roundtrip_geom (cs : CommandState) (i : ℕ) (t : ℚ) (newId : ℕ)
    (hM : cs.backingCommand.svgChar ≠ SvgChar.M)
    (hstrict : List.Chain' (· < ·) (tempSplits cs.minT cs.mutations))
    (hz : ∀ m ∈ cs.mutations.dropLast, m.svgChar ≠ SvgChar.Z)
    (hi : i < cs.mutations.length)
    (ht0 : 0 ≤ t) (ht1 : t ≤ 1)
    (hcm : cs.commands = buildCommandsAux cs.calculator cs.minT cs.mutations) :
    (cs.splitUnsplitRoundTrip i t newId).geom = cs.geom := by
  set ms := cs.mutations with hms
  have hlen1 : (tempSplits cs.minT ms).length = ms.length + 1 := by simp [tempSplits]
  have hpw : List.Pairwise (· < ·) (tempSplits cs.minT ms) :=
    List.chain'_iff_pairwise.mp hstrict
  have hpwget : ∀ (a b : ℕ) (ha : a < (tempSplits cs.minT ms).length)
      (hb : b < (tempSplits cs.minT ms).length), a < b →
      (tempSplits cs.minT ms).get ⟨a, ha⟩ < (tempSplits cs.minT ms).get ⟨b, hb⟩ := by
    intro a b ha hb hab
    exact List.pairwise_iff_get.mp hpw ⟨a, ha⟩ ⟨b, hb⟩ (Fin.mk_lt_mk.mpr hab)
  have htsget : ∀ (j : ℕ) (hj : j < ms.length),
      (tempSplits cs.minT ms).get ⟨j + 1, by omega⟩ = (ms.get ⟨j, hj⟩).t := by
    intro j hj
    simp [tempSplits]
  set s := (tempSplits cs.minT ms).getD i 0 with hsdef
  set e := (tempSplits cs.minT ms).getD (i + 1) 0 with hedef
  have hsget : s = (tempSplits cs.minT ms).get ⟨i, by omega⟩ := by
    rw [hsdef, List.getD_eq_getElem _ _ (by omega)]
    rfl
  have heget : e = (tempSplits cs.minT ms).get ⟨i + 1, by omega⟩ := by
    rw [hedef, List.getD_eq_getElem _ _ (by omega)]
    rfl
  have hse : s < e := by
    rw [hsget, heget]
    exact hpwget i (i + 1) (by omega) (by omega) (by omega)
  have hee : e = (ms.get ⟨i, hi⟩).t := by rw [heget, htsget i hi]
  have hsnew : s ≤ lerp s e t := by
    have hmn : 0 ≤ (e - s) * t := mul_nonneg (by linarith) ht0
    unfold lerp
    linarith
  have hnewe : lerp s e t ≤ e := by
    have hmn : (e - s) * t ≤ (e - s) * 1 := mul_le_mul_of_nonneg_left ht1 (by linarith)
    unfold lerp
    linarith
  set x : Mutation :=
    ⟨newId, lerp s e t,
      (ms.map (fun m => m.svgChar)).getD
        (sortedIndexQ (ms.map (fun m => m.t)) (lerp s e t)) SvgChar.L⟩ with hx
  have hsplit_mut : (cs.splitAtIndexOp i [(t, newId)]).mutations =
      forceSplitClosepathToLine (insertMutation ms x) := by
    unfold CommandState.splitAtIndexOp CommandStateMutator.splitAtIndex
      CommandStateMutator.split
    rw [if_neg (by simp [CommandState.mutate, hM])]
    simp only [CommandStateMutator.build, List.map_cons, List.map_nil, List.foldl_cons,
      List.foldl_nil]
    rfl
  have hcal : (cs.splitAtIndexOp i [(t, newId)]).calculator = cs.calculator := by
    unfold CommandState.splitAtIndexOp CommandStateMutator.splitAtIndex
    exact (split_preserves_frame _ _).2.1
  have hmin : (cs.splitAtIndexOp i [(t, newId)]).minT = cs.minT := by
    unfold CommandState.splitAtIndexOp CommandStateMutator.splitAtIndex
    exact (split_preserves_frame _ _).2.2.1
  have hRTgeom : (cs.splitUnsplitRoundTrip i t newId).geom =
      (buildCommandsAux cs.calculator cs.minT
        (((cs.splitAtIndexOp i [(t, newId)]).mutations).eraseIdx i)).map BuiltCmd.geom := by
    unfold CommandState.splitUnsplitRoundTrip CommandState.unsplitAtIndexOp
      CommandStateMutator.unsplitAtIndex CommandState.geom
    simp [CommandState.mutate, CommandStateMutator.build, hcal, hmin]
  have hgoalR : cs.geom = (buildCommandsAux cs.calculator cs.minT ms).map BuiltCmd.geom := by
    rw [CommandState.geom, hcm]
  rw [hRTgeom, hgoalR, hsplit_mut]
  apply geom_eq_of_map_tc_eq
  -- it remains to compare the (t, kind) contents
  have hkk : sortedIndexQ (ms.map (fun m => m.t)) (lerp s e t) =
      sortedInsertionIdx ms (lerp s e t) := by
    unfold sortedIndexQ sortedInsertionIdx
    simp only [List.takeWhile_map, List.length_map]
    rfl
  have hinsert : insertMutation ms x = ms.insertIdx (sortedInsertionIdx ms (lerp s e t)) x :=
    rfl
  by_cases hB : 1 ≤ i ∧ lerp s e t = s
  · -- the new parameter coincides with the left boundary of an interior range:
    -- it is inserted just before the mutation at that boundary, and the unsplit
    -- then removes that older mutation, which carries the same (t, kind) data.
    obtain ⟨hi1, hts⟩ := hB
    have hsms : s = (ms.get ⟨i - 1, by omega⟩).t := by
      rw [hsget, ← htsget (i - 1) (by omega)]
      congr 1
      exact Fin.ext (by show i = i - 1 + 1; omega)
    have hk : sortedInsertionIdx ms (lerp s e t) = i - 1 := by
      unfold sortedInsertionIdx
      apply length_takeWhile_eq_of _ ms (i - 1) (by omega)
      · intro j hj
        simp only [decide_eq_true_eq]
        have hjlt : (ms.get ⟨j, by omega⟩).t = (tempSplits cs.minT ms).get ⟨j + 1, by omega⟩ :=
          (htsget j (by omega)).symm
        rw [hjlt, hts, hsget]
        exact hpwget (j + 1) i (by omega) (by omega) (by omega)
      · simp only [decide_eq_false_iff_not, not_lt]
        rw [hts, hsms]
    have hchar : x.svgChar = (ms.get ⟨i - 1, by omega⟩).svgChar := by
      rw [hx]
      simp only [hkk, hk]
      rw [List.getD_eq_getElem _ _ (by simp; omega)]
      simp
    have hxz : x.svgChar ≠ SvgChar.Z := by
      rw [hchar]
      apply hz
      rw [List.dropLast_eq_take]
      have hmem : (ms.take (ms.length - 1)).get ⟨i - 1, by simp; omega⟩ = ms.get ⟨i - 1, by omega⟩ := by
        simp
      rw [← hmem]
      exact List.get_mem _ _ _
    rw [hinsert, hk, force_insertIdx ms x (i - 1) (by omega) hz, forceToLine_of_ne x hxz]
    have hdecomp : ms.insertIdx (i - 1) x =
        ms.take (i - 1) ++ x :: ms.get ⟨i - 1, by omega⟩ :: ms.drop i := by
      rw [insertIdx_eq_take_cons_drop x ms (i - 1) (by omega)]
      have hd : ms.drop (i - 1) = ms.get ⟨i - 1, by omega⟩ :: ms.drop i := by
        rw [List.drop_eq_getElem_cons (by omega)]
        have : i - 1 + 1 = i := by omega
        rw [this]
        simp
      rw [hd]
    rw [hdecomp]
    have hlt : (ms.take (i - 1)).length = i - 1 := by
      simp [List.length_take]
      omega
    rw [List.eraseIdx_append_of_length_le (by omega)]
    rw [hlt, show i - (i - 1) = 1 by omega]
    have herase : (x :: ms.get ⟨i - 1, by omega⟩ :: ms.drop i).eraseIdx 1 = x :: ms.drop i := rfl
    rw [herase]
    conv_rhs => rw [← List.take_append_drop (i - 1) ms,
      List.drop_eq_getElem_cons (show i - 1 < ms.length by omega),
      show i - 1 + 1 = i by omega]
    simp only [List.map_append, List.map_cons]
    congr 2
    have hxt : x.t = (ms.get ⟨i - 1, by omega⟩).t := by
      rw [hx]
      simp only
      rw [hts, hsms]
    have hpair : (x.t, x.svgChar) =
        ((ms.get ⟨i - 1, by omega⟩).t, (ms.get ⟨i - 1, by omega⟩).svgChar) := by
      rw [hxt, hchar]
    exact hpair
  · -- the new parameter lands strictly inside the range (or the range starts
    -- the list): it is inserted at position i and removed again by the unsplit.
    have hk : sortedInsertionIdx ms (lerp s e t) = i := by
      unfold sortedInsertionIdx
      apply length_takeWhile_eq_of _ ms i hi
      · intro j hj
        simp only [decide_eq_true_eq]
        have hjlt : (ms.get ⟨j, by omega⟩).t = (tempSplits cs.minT ms).get ⟨j + 1, by omega⟩ :=
          (htsget j (by omega)).symm
        rw [hjlt]
        have hsnew2 : s < lerp s e t := by
          rcases lt_or_eq_of_le hsnew with h | h
          · exact h
          · exfalso
            exact hB ⟨by omega, h.symm⟩
        calc (tempSplits cs.minT ms).get ⟨j + 1, by omega⟩
            ≤ (tempSplits cs.minT ms).get ⟨i, by omega⟩ := by
              rcases Nat.lt_or_ge (j + 1) i with hlt2 | hge2
              · exact le_of_lt (hpwget (j + 1) i (by omega) (by omega) hlt2)
              · have : j + 1 = i := by omega
                subst this
                exact le_refl _
          _ = s := hsget.symm
          _ < lerp s e t := hsnew2
      · simp only [decide_eq_false_iff_not, not_lt]
        rw [← hee]
        exact hnewe
    rw [hinsert, hk, force_insertIdx ms x i hi hz, List.eraseIdx_insertIdx]

/-- Witness for the amended C3: the degenerate-line state split at the middle
of its first range and unsplit again keeps its geometry. -/
theorem split_unsplit_roundtrip_geom_witness :
    (csLineSplitEx.splitUnsplitRoundTrip 0 (1/2) 103).geom = csLineSplitEx.geom := by
  have h := split_unsplit_roundtrip_geom csLineSplitEx 0 (1/2) 103
    (by decide)
    (by norm_num [csLineSplitEx, tempSplits, List.chain'_cons])
    (by decide)
    (by decide)
    (by norm_num)
    (by norm_num)
    rfl
  exact h

mutual

theorem replaceLeafNode_counter (k : ℕ) (new0 : SubPathState) :
    ∀ (s : SubPathState) (c : ℕ), (replaceLeafNode k new0 s c).2 = c + (leavesOf s).length
  | SubPathState.mk css sub so rev i, c => by
    unfold replaceLeafNode leavesOf
    by_cases hsub : sub.isEmpty
    · simp [hsub]
    · simp only [hsub, if_false, Bool.false_eq_true]
      exact replaceLeafList_counter k new0 sub c

theorem replaceLeafList_counter (k : ℕ) (new0 : SubPathState) :
    ∀ (l : List SubPathState) (c : ℕ),
      (replaceLeafList k new0 l c).2 = c + (leavesList l).length
  | [], c => by simp [replaceLeafList, leavesList]
  | s :: rest, c => by
    unfold replaceLeafList leavesList
    simp only [replaceLeafNode_counter k new0 s c,
      replaceLeafList_counter k new0 rest (c + (leavesOf s).length), List.length_append]
    omega

end

mutual

theorem leaves_replaceLeafNode (k : ℕ) (new0 : SubPathState) :
    ∀ (s : SubPathState) (c : ℕ),
      leavesOf (replaceLeafNode k new0 s c).1 =
        if c ≤ k ∧ k < c + (leavesOf s).length then
          (leavesOf s).take (k - c) ++ leavesOf new0 ++ (leavesOf s).drop (k - c + 1)
        else leavesOf s
  | SubPathState.mk css sub so rev i, c => by
    by_cases hsub : sub.isEmpty
    · have hleaf : leavesOf (SubPathState.mk css sub so rev i) = [SubPathState.mk css sub so rev i] := by
        unfold leavesOf
        simp [hsub]
      unfold replaceLeafNode
      by_cases hck : c = k
      · simp only [hsub, if_true, hck, if_pos rfl, hleaf]
        rw [if_pos ⟨le_refl k, by simp [hleaf]⟩]
        simp
      · simp only [hsub, if_true, if_neg hck, hleaf]
        rw [if_neg (by simp [hleaf]; omega)]
    · unfold replaceLeafNode
      simp only [hsub, Bool.false_eq_true, if_false]
      have hlv : leavesOf (SubPathState.mk css sub so rev i) = leavesList sub := by
        unfold leavesOf
        simp [hsub]
      have hne : sub ≠ [] := by
        intro hx
        rw [hx] at hsub
        exact hsub rfl
      have hlv2 : leavesOf (SubPathState.mk css (replaceLeafList k new0 sub c).1 so rev i) =
          leavesList (replaceLeafList k new0 sub c).1 := by
        unfold leavesOf
        cases hsubeq : sub with
        | nil => exact absurd hsubeq hne
        | cons a rest => simp [replaceLeafList]
      rw [hlv2, hlv, leaves_replaceLeafList k new0 sub c]

theorem leaves_replaceLeafList (k : ℕ) (new0 : SubPathState) :
    ∀ (l : List SubPathState) (c : ℕ),
      leavesList (replaceLeafList k new0 l c).1 =
        if c ≤ k ∧ k < c + (leavesList l).length then
          (leavesList l).take (k - c) ++ leavesOf new0 ++ (leavesList l).drop (k - c + 1)
        else leavesList l
  | [], c => by
    unfold replaceLeafList leavesList
    rw [if_neg (by simp)]
  | s :: rest, c => by
    have hA := leaves_replaceLeafNode k new0 s c
    have hc2 : (replaceLeafNode k new0 s c).2 = c + (leavesOf s).length :=
      replaceLeafNode_counter k new0 s c
    have hB := leaves_replaceLeafList k new0 rest (c + (leavesOf s).length)
    unfold replaceLeafList leavesList
    simp only [hc2] at *
    rw [hA, hB]
    set A := leavesOf s with hAdef
    set B := leavesList rest with hBdef
    by_cases h1 : c ≤ k ∧ k < c + A.length
    · rw [if_pos h1, if_neg (by omega), if_pos ⟨h1.1, by simp [List.length_append]; omega⟩]
      rw [List.take_append_eq_append_take, List.drop_append_eq_append_drop]
      have htk : A.take (k - c) ++ B.take (k - c - A.length) = A.take (k - c) := by
        rw [show k - c - A.length = 0 by omega, List.take_zero, List.append_nil]
      have hdr : A.drop (k - c + 1) ++ B.drop (k - c + 1 - A.length) = A.drop (k - c + 1) ++ B := by
        rw [show k - c + 1 - A.length = 0 by omega, List.drop_zero]
      rw [htk, hdr]
      simp [List.append_assoc]
    · rw [if_neg h1]
      by_cases h2 : c + A.length ≤ k ∧ k < c + A.length + B.length
      · rw [if_pos h2, if_pos ⟨by omega, by simp [List.length_append]; omega⟩]
        rw [List.take_append_eq_append_take, List.drop_append_eq_append_drop]
        have htk : A.take (k - c) = A := List.take_of_length_le (by omega)
        have hdr : A.drop (k - c + 1) = [] := List.drop_eq_nil_of_le (by omega)
        rw [htk, hdr, show k - c - A.length = k - (c + A.length) by omega,
          show k - c + 1 - A.length = k - (c + A.length) + 1 by omega]
        simp [List.append_assoc]
      · rw [if_neg h2, if_neg (by simp [List.length_append]; omega)]

end

mutual

theorem not_isSplit_of_mem_leavesOf :
    ∀ (s0 : SubPathState), ∀ s ∈ leavesOf s0, s.isSplit = false
  | SubPathState.mk css sub so rev i => by
    intro s hs
    by_cases hsub : sub.isEmpty
    · unfold leavesOf at hs
      rw [if_pos hsub] at hs
      rcases List.mem_singleton.mp hs with rfl
      unfold SubPathState.isSplit SubPathState.splitSubPaths
      simp [List.isEmpty_iff.mp hsub]
    · unfold leavesOf at hs
      rw [if_neg hsub] at hs
      exact not_isSplit_of_mem_leavesList sub s hs

theorem not_isSplit_of_mem_leavesList :
    ∀ (l : List SubPathState), ∀ s ∈ leavesList l, s.isSplit = false
  | [] => by intro s hs; simp [leavesList] at hs
  | s0 :: rest => by
    intro s hs
    unfold leavesList at hs
    rcases List.mem_append.mp hs with h | h
    · exact not_isSplit_of_mem_leavesOf s0 s h
    · exact not_isSplit_of_mem_leavesList rest s h

end

/-- A leaf node's own leaf list is the singleton of itself. -/
theorem leavesOf_of_not_isSplit (s : SubPathState) (h : s.isSplit = false) :
    leavesOf s = [s] := by
  cases s with
  | mk css sub so rev i =>
    unfold SubPathState.isSplit SubPathState.splitSubPaths at h
    unfold leavesOf
    rw [if_pos (by simpa using h)]

/-- Replacing the `cmsIdx`-th leaf of the forest splices the new node's leaves
into the flattened leaf list at that position. -/
theorem leaves_setSubPathState (pm : PathMutator) (new0 : SubPathState) (cmsIdx : ℕ)
    (hk : cmsIdx < (leavesList pm.subPathStateMap).length) :
    leavesList (pm.setSubPathState new0 cmsIdx).subPathStateMap =
      (leavesList pm.subPathStateMap).take cmsIdx ++ leavesOf new0 ++
        (leavesList pm.subPathStateMap).drop (cmsIdx + 1) := by
  unfold PathMutator.setSubPathState
  simp only
  rw [leaves_replaceLeafList, if_pos ⟨Nat.zero_le _, by omega⟩]
  simp

/-- Claim C9 counterexample: on a one-command sub-path `reverseSubPath` does
not leave the `PathMutator` state unchanged — the sub-path's `isReversed`
flag flips from `false` to `true` (the call is not rejected either; the shift
operations, by contrast, are genuine no-ops, see the amended theorem). -/
theorem reverse_single_command_changes_state_counterexample :
    (pmSingleEx.reverseSubPath 0).map
        (fun pm => (leavesList pm.subPathStateMap).map SubPathState.isReversed) = some [true] ∧
    (leavesList pmSingleEx.subPathStateMap).map SubPathState.isReversed = [false] ∧
    numCommandsInSubPath spsSingleEx ≤ 1 := by
  refine ⟨?_, ?_, ?_⟩ <;> rfl

/-- Claim C9 (amended): on a sub-path with at most one command, the shift
operations return the `PathMutator` state unchanged rather than rejecting the
call; `reverseSubPath` does not reject either, but it is not a state no-op: it
toggles exactly that sub-path's `isReversed` flag, leaving its commands and
shift offset, all other sub-paths, the visible ordering and the collapsing
count unchanged. -/
theorem shift_noop_and_reverse_toggles (pm : PathMutator)
    (subIdx numShifts cmsIdx : ℕ) (sps : SubPathState)
    (hord : pm.subPathOrdering.get? subIdx = some cmsIdx)
    (hfind : pm.findSubPathState cmsIdx = some sps)
    (hn : numCommandsInSubPath sps ≤ 1) :
    pm.shiftSubPathForward subIdx numShifts = some pm ∧
    pm.shiftSubPathBack subIdx numShifts = some pm ∧
    pm.reverseSubPath subIdx = some (pm.setSubPathState sps.reverse cmsIdx) ∧
    (pm.setSubPathState sps.reverse cmsIdx).subPathOrdering = pm.subPathOrdering ∧
    (pm.setSubPathState sps.reverse cmsIdx).numCollapsingSubPaths = pm.numCollapsingSubPaths ∧
    leavesList (pm.setSubPathState sps.reverse cmsIdx).subPathStateMap =
      (leavesList pm.subPathStateMap).take cmsIdx ++ [sps.reverse] ++
        (leavesList pm.subPathStateMap).drop (cmsIdx + 1) ∧
    sps.reverse.isReversed = !sps.isReversed ∧
    sps.reverse.commandStates = sps.commandStates ∧
    sps.reverse.shiftOffset = sps.shiftOffset := by
  have hk : cmsIdx < (leavesList pm.subPathStateMap).length := by
    unfold PathMutator.findSubPathState at hfind
    exact List.get?_eq_some.mp hfind |>.choose
  have hshift : ∀ fn, pm.shift subIdx fn = some pm := by
    intro fn
    unfold PathMutator.shift
    rw [hord]
    dsimp only
    rw [hfind]
    dsimp only
    rw [if_pos hn]
  refine ⟨?_, ?_, ?_, rfl, rfl, ?_, ?_, rfl, rfl⟩
  · unfold PathMutator.shiftSubPathForward
    rw [hord]
    dsimp only
    rw [hfind]
    dsimp only
    split <;> exact hshift _
  · unfold PathMutator.shiftSubPathBack
    rw [hord]
    dsimp only
    rw [hfind]
    dsimp only
    split <;> exact hshift _
  · unfold PathMutator.reverseSubPath
    rw [hord]
    dsimp only
    rw [hfind]
  · have hleaf : sps.isSplit = false := by
      apply not_isSplit_of_mem_leavesList pm.subPathStateMap
      unfold PathMutator.findSubPathState at hfind
      exact List.get?_mem hfind
    have hrevleaf : sps.reverse.isSplit = false := by
      cases sps with
      | mk css sub so rev i => exact hleaf
    rw [leaves_setSubPathState pm sps.reverse cmsIdx hk, leavesOf_of_not_isSplit _ hrevleaf]
  · cases sps with
    | mk css sub so rev i => simp [SubPathState.reverse, SubPathState.isReversed]

/-- Witness for the amended C9 at the concrete one-command sub-path. -/
theorem shift_noop_and_reverse_toggles_witness :
    pmSingleEx.shiftSubPathForward 0 1 = some pmSingleEx ∧
    pmSingleEx.reverseSubPath 0 =
      some (pmSingleEx.setSubPathState spsSingleEx.reverse 0) := by
  have h := shift_noop_and_reverse_toggles pmSingleEx 0 1 0 spsSingleEx rfl rfl
    (by norm_num [numCommandsInSubPath, spsSingleEx, csM0, CommandState.fresh,
      SubPathState.commandStates])
  exact ⟨h.1, h.2.2.1⟩

theorem length_buildCommandsAux (cal : Calculator) :
    ∀ (t0 : ℚ) (ms : List Mutation), (buildCommandsAux cal t0 ms).length = ms.length
  | _, [] => rfl
  | t0, m :: rest => by
    simp [buildCommandsAux, length_buildCommandsAux cal m.t rest]

theorem length_forceSplitClosepathToLine (ms : List Mutation) :
    (forceSplitClosepathToLine ms).length = ms.length := by
  have h := congrArg List.length (map_t_forceSplitClosepathToLine ms)
  simpa using h

theorem length_insertMutation (ms : List Mutation) (m0 : Mutation) :
    (insertMutation ms m0).length = ms.length + 1 := by
  rw [insertMutation_eq_orderedInsert]
  exact List.orderedInsert_length _ _ _

theorem length_foldl_insertMutation_fn {α : Type} (g : α → Mutation) :
    ∀ (bs : List α) (ms : List Mutation),
      (bs.foldl (fun acc ti => insertMutation acc (g ti)) ms).length =
        ms.length + bs.length := by
  intro bs
  induction bs with
  | nil => intro ms; rfl
  | cons b bs ih =>
    intro ms
    rw [List.foldl_cons, ih, length_insertMutation]
    simp only [List.length_cons]
    omega

/-- Splitting a non-moveto command with `n` parameters inserts exactly `n`
mutations. -/
theorem length_split_mutations (mu : CommandStateMutator) (tsIds : List (ℚ × ℕ))
    (hM : mu.backingCommand.svgChar ≠ SvgChar.M) :
    (mu.split tsIds).mutations.length = mu.mutations.length + tsIds.length := by
  unfold CommandStateMutator.split
  by_cases he : tsIds.isEmpty
  · rw [if_pos (Or.inl he)]
    have : tsIds = [] := List.isEmpty_iff.mp he
    simp [this]
  · rw [if_neg (by simp [hM, he])]
    simp only [length_forceSplitClosepathToLine]
    exact length_foldl_insertMutation_fn
      (fun ti => ⟨ti.2, ti.1,
        (mu.mutations.map (fun x => x.svgChar)).getD
          (sortedIndexQ (mu.mutations.map (fun x => x.t)) ti.1) SvgChar.L⟩)
      tsIds mu.mutations

theorem length_splitAtIndex_mutations (mu : CommandStateMutator) (i : ℕ)
    (tsIds : List (ℚ × ℕ)) (hM : mu.backingCommand.svgChar ≠ SvgChar.M) :
    (mu.splitAtIndex i tsIds).mutations.length = mu.mutations.length + tsIds.length := by
  unfold CommandStateMutator.splitAtIndex
  rw [length_split_mutations _ _ hM, List.length_map]

/-- Summed command counts after replacing one command state in a sub-path. -/
theorem sum_lengths_set (css : List CommandState) :
    ∀ (i : ℕ) (x target : CommandState), css.get? i = some target →
      ((css.set i x).map (fun cm => cm.commands.length)).sum + target.commands.length =
        (css.map (fun cm => cm.commands.length)).sum + x.commands.length := by
  induction css with
  | nil => intro i x target hget; simp at hget
  | cons a rest ih =>
    intro i x target hget
    cases i with
    | zero =>
      have ha : a = target := by simpa using hget
      subst ha
      simp only [List.set_cons_zero, List.map_cons, List.sum_cons]
      omega
    | succ n =>
      have hih := ih n x target (by simpa using hget)
      simp only [List.set_cons_succ, List.map_cons, List.sum_cons]
      omega

theorem shiftOffset_setShiftOffset (s : SubPathState) (n : ℕ) :
    (s.setShiftOffset n).shiftOffset = n := by cases s; rfl

theorem shiftOffset_setCommandState (s : SubPathState) (cm : CommandState) (i : ℕ) :
    (s.setCommandState cm i).shiftOffset = s.shiftOffset := by cases s; rfl

theorem commandStates_setCommandState (s : SubPathState) (cm : CommandState) (i : ℕ) :
    (s.setCommandState cm i).commandStates = s.commandStates.set i cm := by cases s; rfl

theorem commandStates_setShiftOffset (s : SubPathState) (n : ℕ) :
    (s.setShiftOffset n).commandStates = s.commandStates := by cases s; rfl

theorem isSplit_setCommandState (s : SubPathState) (cm : CommandState) (i : ℕ) :
    (s.setCommandState cm i).isSplit = s.isSplit := by cases s; rfl

theorem isSplit_setShiftOffset (s : SubPathState) (n : ℕ) :
    (s.setShiftOffset n).isSplit = s.isSplit := by cases s; rfl

/-- A leaf found by `findSubPathState` sits below the leaf-list length, is not
split, and after replacing it the same index resolves to the new leaf. -/
theorem findSubPathState_after_set (pm : PathMutator) (cmsIdx : ℕ) (sps new0 : SubPathState)
    (hfind : pm.findSubPathState cmsIdx = some sps) (hleaf : new0.isSplit = false) :
    (pm.setSubPathState new0 cmsIdx).findSubPathState cmsIdx = some new0 := by
  have hk : cmsIdx < (leavesList pm.subPathStateMap).length := by
    unfold PathMutator.findSubPathState at hfind
    exact List.get?_eq_some.mp hfind |>.choose
  unfold PathMutator.findSubPathState
  have hset := leaves_setSubPathState pm new0 cmsIdx hk
  have : (pm.setSubPathState new0 cmsIdx).subPathStateMap =
      ((pm.setSubPathState new0 cmsIdx)).subPathStateMap := rfl
  rw [hset, leavesOf_of_not_isSplit _ hleaf]
  have hlt : ((leavesList pm.subPathStateMap).take cmsIdx).length = cmsIdx := by
    simp
    omega
  rw [List.append_assoc, List.get?_append_right (by omega), hlt]
  simp

/-- For `splitCommand` on a resolvable target that is not moveto-backed, the
sub-path's shift offset afterwards is the old offset plus the number of newly
inserted split points (`ts.length`, which is exactly the command-count
increase) when the resolved command-state position is at or before the
non-zero pivot, and is unchanged otherwise. -/
theorem splitCommand_updates_shift_offset (pm pm2 : PathMutator) (subIdx cmdIdx : ℕ)
    (tsIds : List (ℚ × ℕ)) (info : CmInfo) (sps : SubPathState)
    (hts : tsIds ≠ [])
    (hinfo : pm.findCommandStateInfo subIdx cmdIdx = some info)
    (hsps : pm.findSubPathState info.cmsIdx = some sps)
    (hres : pm.splitCommand subIdx cmdIdx tsIds = some pm2)
    (hM : info.targetCm.backingCommand.svgChar ≠ SvgChar.M)
    (hcml : info.targetCm.commands.length = info.targetCm.mutations.length)
    (hget : sps.commandStates.get? info.cmIdx = some info.targetCm) :
    ∃ sps2 : SubPathState,
      pm2.findSubPathState info.cmsIdx = some sps2 ∧
      (sps.shiftOffset ≠ 0 → info.cmIdx ≤ sps.shiftOffset →
        sps2.shiftOffset = sps.shiftOffset + tsIds.length) ∧
      (sps.shiftOffset ≠ 0 → sps.shiftOffset < info.cmIdx →
        sps2.shiftOffset = sps.shiftOffset) ∧
      (sps.shiftOffset = 0 → sps2.shiftOffset = 0) ∧
      numCommandsInSubPath sps2 = numCommandsInSubPath sps + tsIds.length := by
  have hleafsps : sps.isSplit = false := by
    apply not_isSplit_of_mem_leavesList pm.subPathStateMap
    unfold PathMutator.findSubPathState at hsps
    exact List.get?_mem hsps
  set built := (info.targetCm.mutate.splitAtIndex info.splitIdx tsIds).build with hbuilt
  set so2 := pm.getUpdatedShiftOffsetsAfterSplit info.cmsIdx info.cmIdx tsIds.length with hso2
  set new0 := (sps.setShiftOffset so2).setCommandState built info.cmIdx with hnew0
  have hpm2 : pm2 = pm.setSubPathState new0 info.cmsIdx := by
    unfold PathMutator.splitCommand at hres
    rw [if_neg (by simpa using hts)] at hres
    rw [hinfo] at hres
    dsimp only at hres
    rw [hsps] at hres
    dsimp only at hres
    exact (Option.some.injEq _ _).mp hres.symm
  have hleafnew : new0.isSplit = false := by
    rw [hnew0, isSplit_setCommandState, isSplit_setShiftOffset]
    exact hleafsps
  refine ⟨new0, ?_, ?_, ?_, ?_, ?_⟩
  · rw [hpm2]
    exact findSubPathState_after_set pm info.cmsIdx sps new0 hsps hleafnew
  · intro hnz hle
    rw [hnew0, shiftOffset_setCommandState, shiftOffset_setShiftOffset, hso2]
    unfold PathMutator.getUpdatedShiftOffsetsAfterSplit
    rw [hsps]
    dsimp only
    rw [if_pos ⟨hnz, hle⟩]
  · intro hnz hlt
    rw [hnew0, shiftOffset_setCommandState, shiftOffset_setShiftOffset, hso2]
    unfold PathMutator.getUpdatedShiftOffsetsAfterSplit
    rw [hsps]
    dsimp only
    rw [if_neg (by omega)]
  · intro h0
    rw [hnew0, shiftOffset_setCommandState, shiftOffset_setShiftOffset, hso2]
    unfold PathMutator.getUpdatedShiftOffsetsAfterSplit
    rw [hsps]
    dsimp only
    rw [if_neg (by omega), h0]
  · have hbl : built.commands.length = info.targetCm.commands.length + tsIds.length := by
      rw [hbuilt]
      show (buildCommandsAux _ _ _).length = _
      rw [length_buildCommandsAux,
        length_splitAtIndex_mutations _ _ _ (by exact hM), hcml]
      rfl
    have hsum := sum_lengths_set sps.commandStates info.cmIdx built info.targetCm hget
    unfold numCommandsInSubPath
    rw [hnew0, commandStates_setCommandState, commandStates_setShiftOffset]
    omega

/-- Concrete instance: splitting the shifted four-command sub-path at a
position at the pivot bumps the shift offset from 1 to 2 and adds one
command. -/
theorem splitCommand_updates_shift_offset_witness :
    ∃ sps2 : SubPathState,
      ((pmShiftEx.splitCommand 0 0 [(0, 61)]).getD pmShiftEx).findSubPathState 0 = some sps2 ∧
      sps2.shiftOffset = 2 ∧
      numCommandsInSubPath sps2 = numCommandsInSubPath spsShiftEx + 1 := by
  obtain ⟨sps2, h1, h2, -, -, h5⟩ :=
    splitCommand_updates_shift_offset pmShiftEx
      ((pmShiftEx.splitCommand 0 0 [(0, 61)]).getD pmShiftEx) 0 0 [(0, 61)]
      ⟨csL1, 0, 1, 0⟩ spsShiftEx
      (by simp) rfl rfl rfl (by decide) rfl rfl
  refine ⟨sps2, h1, ?_, h5⟩
  rw [h2 (by decide) (by decide)]
  decide

/-- `splitInHalfAtIndex` on a non-moveto backing inserts exactly one
mutation. -/
theorem length_splitInHalfAtIndex_mutations (mu : CommandStateMutator) (i newId : ℕ)
    (hM : mu.backingCommand.svgChar ≠ SvgChar.M) :
    (mu.splitInHalfAtIndex i newId).mutations.length = mu.mutations.length + 1 := by
  unfold CommandStateMutator.splitInHalfAtIndex
  rw [length_split_mutations _ _ hM]
  rfl

/-- For `splitCommandInHalf` on a resolvable target that is not moveto-backed,
the sub-path's shift offset afterwards is the old offset plus one (the single
newly inserted split point, which is exactly the command-count increase) when
the resolved command-state position is at or before the non-zero pivot, and is
unchanged otherwise. -/
theorem splitCommandInHalf_updates_shift_offset (pm pm2 : PathMutator)
    (subIdx cmdIdx newId : ℕ) (info : CmInfo) (sps : SubPathState)
    (hinfo : pm.findCommandStateInfo subIdx cmdIdx = some info)
    (hsps : pm.findSubPathState info.cmsIdx = some sps)
    (hres : pm.splitCommandInHalf subIdx cmdIdx newId = some pm2)
    (hM : info.targetCm.backingCommand.svgChar ≠ SvgChar.M)
    (hcml : info.targetCm.commands.length = info.targetCm.mutations.length)
    (hget : sps.commandStates.get? info.cmIdx = some info.targetCm) :
    ∃ sps2 : SubPathState,
      pm2.findSubPathState info.cmsIdx = some sps2 ∧
      (sps.shiftOffset ≠ 0 → info.cmIdx ≤ sps.shiftOffset →
        sps2.shiftOffset = sps.shiftOffset + 1) ∧
      (sps.shiftOffset ≠ 0 → sps.shiftOffset < info.cmIdx →
        sps2.shiftOffset = sps.shiftOffset) ∧
      (sps.shiftOffset = 0 → sps2.shiftOffset = 0) ∧
      numCommandsInSubPath sps2 = numCommandsInSubPath sps + 1 := by
  have hleafsps : sps.isSplit = false := by
    apply not_isSplit_of_mem_leavesList pm.subPathStateMap
    unfold PathMutator.findSubPathState at hsps
    exact List.get?_mem hsps
  set built := (info.targetCm.mutate.splitInHalfAtIndex info.splitIdx newId).build with hbuilt
  set so2 := pm.getUpdatedShiftOffsetsAfterSplit info.cmsIdx info.cmIdx 1 with hso2
  set new0 := (sps.setShiftOffset so2).setCommandState built info.cmIdx with hnew0
  have hpm2 : pm2 = pm.setSubPathState new0 info.cmsIdx := by
    unfold PathMutator.splitCommandInHalf at hres
    rw [hinfo] at hres
    dsimp only at hres
    rw [hsps] at hres
    dsimp only at hres
    exact (Option.some.injEq _ _).mp hres.symm
  have hleafnew : new0.isSplit = false := by
    rw [hnew0, isSplit_setCommandState, isSplit_setShiftOffset]
    exact hleafsps
  refine ⟨new0, ?_, ?_, ?_, ?_, ?_⟩
  · rw [hpm2]
    exact findSubPathState_after_set pm info.cmsIdx sps new0 hsps hleafnew
  · intro hnz hle
    rw [hnew0, shiftOffset_setCommandState, shiftOffset_setShiftOffset, hso2]
    unfold PathMutator.getUpdatedShiftOffsetsAfterSplit
    rw [hsps]
    dsimp only
    rw [if_pos ⟨hnz, hle⟩]
  · intro hnz hlt
    rw [hnew0, shiftOffset_setCommandState, shiftOffset_setShiftOffset, hso2]
    unfold PathMutator.getUpdatedShiftOffsetsAfterSplit
    rw [hsps]
    dsimp only
    rw [if_neg (by omega)]
  · intro h0
    rw [hnew0, shiftOffset_setCommandState, shiftOffset_setShiftOffset, hso2]
    unfold PathMutator.getUpdatedShiftOffsetsAfterSplit
    rw [hsps]
    dsimp only
    rw [if_neg (by omega), h0]
  · have hbl : built.commands.length = info.targetCm.commands.length + 1 := by
      rw [hbuilt]
      show (buildCommandsAux _ _ _).length = _
      rw [length_buildCommandsAux,
        length_splitInHalfAtIndex_mutations _ _ _ (by exact hM), hcml]
      rfl
    have hsum := sum_lengths_set sps.commandStates info.cmIdx built info.targetCm hget
    unfold numCommandsInSubPath
    rw [hnew0, commandStates_setCommandState, commandStates_setShiftOffset]
    omega

/-- Claim C8: for a `splitCommand` or `splitCommandInHalf` operation on a
resolvable target that is not moveto-backed, the sub-path's shift offset
afterwards is the old offset plus the number of newly inserted split points
(`ts.length` for `splitCommand`, `1` for `splitCommandInHalf` — in each case
exactly the command-count increase) when the resolved command-state position
is at or before the non-zero pivot, and is unchanged otherwise. -/
theorem split_ops_update_shift_offset (pm pm2 pmh2 : PathMutator) (subIdx cmdIdx : ℕ)
    (tsIds : List (ℚ × ℕ)) (newId : ℕ) (info : CmInfo) (sps : SubPathState)
    (hts : tsIds ≠ [])
    (hinfo : pm.findCommandStateInfo subIdx cmdIdx = some info)
    (hsps : pm.findSubPathState info.cmsIdx = some sps)
    (hres : pm.splitCommand subIdx cmdIdx tsIds = some pm2)
    (hresh : pm.splitCommandInHalf subIdx cmdIdx newId = some pmh2)
    (hM : info.targetCm.backingCommand.svgChar ≠ SvgChar.M)
    (hcml : info.targetCm.commands.length = info.targetCm.mutations.length)
    (hget : sps.commandStates.get? info.cmIdx = some info.targetCm) :
    (∃ sps2 : SubPathState,
      pm2.findSubPathState info.cmsIdx = some sps2 ∧
      (sps.shiftOffset ≠ 0 → info.cmIdx ≤ sps.shiftOffset →
        sps2.shiftOffset = sps.shiftOffset + tsIds.length) ∧
      (sps.shiftOffset ≠ 0 → sps.shiftOffset < info.cmIdx →
        sps2.shiftOffset = sps.shiftOffset) ∧
      (sps.shiftOffset = 0 → sps2.shiftOffset = 0) ∧
      numCommandsInSubPath sps2 = numCommandsInSubPath sps + tsIds.length) ∧
    (∃ sps3 : SubPathState,
      pmh2.findSubPathState info.cmsIdx = some sps3 ∧
      (sps.shiftOffset ≠ 0 → info.cmIdx ≤ sps.shiftOffset →
        sps3.shiftOffset = sps.shiftOffset + 1) ∧
      (sps.shiftOffset ≠ 0 → sps.shiftOffset < info.cmIdx →
        sps3.shiftOffset = sps.shiftOffset) ∧
      (sps.shiftOffset = 0 → sps3.shiftOffset = 0) ∧
      numCommandsInSubPath sps3 = numCommandsInSubPath sps + 1) :=
  ⟨splitCommand_updates_shift_offset pm pm2 subIdx cmdIdx tsIds info sps
      hts hinfo hsps hres hM hcml hget,
    splitCommandInHalf_updates_shift_offset pm pmh2 subIdx cmdIdx newId info sps
      hinfo hsps hresh hM hcml hget⟩

/-- Witness for C8: on the shifted four-command sub-path, splitting at a
position at the pivot with one parameter — or halving there — bumps the shift
offset from 1 to 2 and adds exactly one command. -/
theorem split_ops_update_shift_offset_witness :
    ∃ sps2 sps3 : SubPathState,
      ((pmShiftEx.splitCommand 0 0 [(0, 61)]).getD pmShiftEx).findSubPathState 0 =
        some sps2 ∧
      sps2.shiftOffset = 2 ∧
      numCommandsInSubPath sps2 = numCommandsInSubPath spsShiftEx + 1 ∧
      ((pmShiftEx.splitCommandInHalf 0 0 62).getD pmShiftEx).findSubPathState 0 =
        some sps3 ∧
      sps3.shiftOffset = 2 ∧
      numCommandsInSubPath sps3 = numCommandsInSubPath spsShiftEx + 1 := by
  obtain ⟨⟨sps2, h1, h2, -, -, h5⟩, ⟨sps3, g1, g2, -, -, g5⟩⟩ :=
    split_ops_update_shift_offset pmShiftEx
      ((pmShiftEx.splitCommand 0 0 [(0, 61)]).getD pmShiftEx)
      ((pmShiftEx.splitCommandInHalf 0 0 62).getD pmShiftEx)
      0 0 [(0, 61)] 62 ⟨csL1, 0, 1, 0⟩ spsShiftEx
      (by simp) rfl rfl rfl rfl (by decide) rfl rfl
  refine ⟨sps2, sps3, h1, ?_, h5, g1, ?_, g5⟩
  · rw [h2 (by decide) (by decide)]
    decide
  · rw [g2 (by decide) (by decide)]
    decide

theorem commandStates_setCommandStates (s : SubPathState) (css : List CommandState) :
    (s.setCommandStates css).commandStates = css := by cases s; rfl

theorem commandStates_setSplitSubPaths (s : SubPathState) (l : List SubPathState) :
    (s.setSplitSubPaths l).commandStates = s.commandStates := by cases s; rfl

theorem commandStates_setId (s : SubPathState) (n : ℕ) :
    (s.setId n).commandStates = s.commandStates := by cases s; rfl

theorem isSplit_setId (s : SubPathState) (n : ℕ) :
    (s.setId n).isSplit = s.isSplit := by cases s; rfl

theorem isSplit_setSplitSubPaths_nil (s : SubPathState) :
    (s.setSplitSubPaths []).isSplit = false := by
  cases s
  rfl

theorem leavesOf_setSplitSubPaths_two (s c1 c2 : SubPathState)
    (h1 : c1.isSplit = false) (h2 : c2.isSplit = false) :
    leavesOf (s.setSplitSubPaths [c1, c2]) = [c1, c2] := by
  cases s with
  | mk css sub so rev i =>
    show leavesOf (SubPathState.mk css [c1, c2] so rev i) = [c1, c2]
    unfold leavesOf
    rw [if_neg (by simp)]
    show leavesOf c1 ++ (leavesOf c2 ++ leavesList []) = [c1, c2]
    rw [leavesOf_of_not_isSplit c1 h1, leavesOf_of_not_isSplit c2 h2]
    rfl

/-- Splitting a sub-path's command-count sum at one resolved position. -/
theorem sum_lengths_decomp (css : List CommandState) (i : ℕ) (target : CommandState)
    (hget : css.get? i = some target) :
    (css.map (fun cm => cm.commands.length)).sum =
      ((css.take i).map (fun cm => cm.commands.length)).sum + target.commands.length +
      ((css.drop (i + 1)).map (fun cm => cm.commands.length)).sum := by
  obtain ⟨hlt, helt⟩ := List.get?_eq_some.mp hget
  have hdec : css = css.take i ++ target :: css.drop (i + 1) := by
    conv_lhs => rw [← List.take_append_drop i css]
    rw [List.drop_eq_getElem_cons hlt]
    rw [show css[i] = target from by rw [← helt]; simp]
  conv_lhs => rw [hdec]
  simp [List.sum_append]
  omega

/-- Claim C7: `splitStrokedSubPath` turns the resolved leaf sub-path into an
internal node with exactly two leaf children, whose combined command count is
the original sub-path's count plus one (the seam moveto), and appends exactly
one entry to the visible sub-path ordering. -/
theorem splitStrokedSubPath_two_leaves (pm pm2 : PathMutator) (subIdx cmdIdx : ℕ)
    (seamId id1 id2 : ℕ) (info : CmInfo) (sps : SubPathState) (target : CommandState)
    (hinfo : pm.findCommandStateInfo subIdx cmdIdx = some info)
    (hsps : pm.findSubPathState info.cmsIdx = some sps)
    (hget : sps.commandStates.get? info.cmIdx = some target)
    (hres : pm.splitStrokedSubPath subIdx cmdIdx seamId id1 id2 = some pm2)
    (hsplitIdx : info.splitIdx < target.mutations.length)
    (hcml : target.commands.length = target.mutations.length) :
    ∃ c1 c2 : SubPathState,
      (sps.setSplitSubPaths [c1, c2]).isSplit = true ∧
      c1.isSplit = false ∧ c2.isSplit = false ∧
      leavesList pm2.subPathStateMap =
        (leavesList pm.subPathStateMap).take info.cmsIdx ++ [c1, c2] ++
          (leavesList pm.subPathStateMap).drop (info.cmsIdx + 1) ∧
      numCommandsInSubPath c1 + numCommandsInSubPath c2 = numCommandsInSubPath sps + 1 ∧
      pm2.subPathOrdering = pm.subPathOrdering ++ [pm.subPathOrdering.length] ∧
      pm2.subPathOrdering.length = pm.subPathOrdering.length + 1 := by
  have hk : info.cmsIdx < (leavesList pm.subPathStateMap).length := by
    unfold PathMutator.findSubPathState at hsps
    exact List.get?_eq_some.mp hsps |>.choose
  set lr := target.fork info.splitIdx with hlr
  set splitPoint := (target.commands.getD info.splitIdx junkBuiltCmd).endPt with hsp
  set seamCmd : Cmd := ⟨SvgChar.M, [some splitPoint, some splitPoint], seamId, false⟩ with hseamCmd
  set seam := CommandState.fresh seamCmd (pointCalculator splitPoint) with hseam
  set startCommandStates := sps.commandStates.take info.cmIdx ++ [lr.1] with hstart
  set endCommandStates :=
    seam :: ((if lr.2.commands.length ≠ 0 then [lr.2] else []) ++
      sps.commandStates.drop (info.cmIdx + 1)) with hend
  set c1 := ((sps.setCommandStates startCommandStates).setSplitSubPaths []).setId id1 with hc1
  set c2 := ((sps.setCommandStates endCommandStates).setSplitSubPaths []).setId id2 with hc2
  have hpm2 : pm2 = { pm.setSubPathState (sps.setSplitSubPaths [c1, c2]) info.cmsIdx with
      subPathOrdering := pm.subPathOrdering ++ [pm.subPathOrdering.length] } := by
    unfold PathMutator.splitStrokedSubPath at hres
    rw [hinfo] at hres
    dsimp only at hres
    rw [hsps] at hres
    dsimp only at hres
    rw [hget] at hres
    dsimp only at hres
    exact (Option.some.injEq _ _).mp hres.symm
  have hc1leaf : c1.isSplit = false := by
    rw [hc1, isSplit_setId, isSplit_setSplitSubPaths_nil]
  have hc2leaf : c2.isSplit = false := by
    rw [hc2, isSplit_setId, isSplit_setSplitSubPaths_nil]
  refine ⟨c1, c2, ?_, hc1leaf, hc2leaf, ?_, ?_, ?_, ?_⟩
  · cases sps
    rfl
  · rw [hpm2]
    show leavesList (pm.setSubPathState (sps.setSplitSubPaths [c1, c2]) info.cmsIdx).subPathStateMap = _
    rw [leaves_setSubPathState pm _ info.cmsIdx hk,
      leavesOf_setSplitSubPaths_two sps c1 c2 hc1leaf hc2leaf]
  · -- command counts
    have hleft : lr.1.commands.length = info.splitIdx + 1 := by
      rw [hlr]
      show (buildCommandsAux _ _ _).length = _
      rw [length_buildCommandsAux]
      show (target.mutations.take (info.splitIdx + 1)).length = _
      rw [List.length_take]
      omega
    have hright : lr.2.commands.length = target.mutations.length - (info.splitIdx + 1) := by
      rw [hlr]
      show (buildCommandsAux _ _ _).length = _
      rw [length_buildCommandsAux]
      show (target.mutations.drop (info.splitIdx + 1)).length = _
      rw [List.length_drop]
    have hseamlen : seam.commands.length = 1 := rfl
    have hdecomp := sum_lengths_decomp sps.commandStates info.cmIdx target hget
    unfold numCommandsInSubPath
    rw [hc1, hc2, commandStates_setId, commandStates_setSplitSubPaths,
      commandStates_setCommandStates, commandStates_setId, commandStates_setSplitSubPaths,
      commandStates_setCommandStates, hstart, hend]
    by_cases hre : lr.2.commands.length ≠ 0
    · rw [if_pos hre]
      simp only [List.map_append, List.map_cons, List.sum_append, List.sum_cons,
        List.map_nil, List.sum_nil, hseamlen, hleft, hright]
      omega
    · rw [if_neg hre]
      simp only [List.map_append, List.map_cons, List.sum_append, List.sum_cons,
        List.map_nil, List.sum_nil, hseamlen, hleft]
      have hr0 : target.mutations.length - (info.splitIdx + 1) = 0 := by
        rw [← hright]
        omega
      omega
  · rw [hpm2]
  · rw [hpm2]
    simp

/-- Witness for C7: the spec's scenario — a four-command open sub-path split
at `cmdIdx = 2` yields two leaf children with a combined command count of
five, and the ordering grows from one entry to two. -/
theorem splitStrokedSubPath_two_leaves_witness :
    ∃ c1 c2 : SubPathState,
      (spsOpen4Ex.setSplitSubPaths [c1, c2]).isSplit = true ∧
      c1.isSplit = false ∧ c2.isSplit = false ∧
      leavesList ((pmOpen4Ex.splitStrokedSubPath 0 2 300 301 302).getD
        pmOpen4Ex).subPathStateMap =
        (leavesList pmOpen4Ex.subPathStateMap).take 0 ++ [c1, c2] ++
          (leavesList pmOpen4Ex.subPathStateMap).drop 1 ∧
      numCommandsInSubPath c1 + numCommandsInSubPath c2 =
        numCommandsInSubPath spsOpen4Ex + 1 ∧
      ((pmOpen4Ex.splitStrokedSubPath 0 2 300 301 302).getD pmOpen4Ex).subPathOrdering =
        pmOpen4Ex.subPathOrdering ++ [pmOpen4Ex.subPathOrdering.length] ∧
      ((pmOpen4Ex.splitStrokedSubPath 0 2 300 301 302).getD pmOpen4Ex).subPathOrdering.length =
        pmOpen4Ex.subPathOrdering.length + 1 :=
  splitStrokedSubPath_two_leaves pmOpen4Ex
    ((pmOpen4Ex.splitStrokedSubPath 0 2 300 301 302).getD pmOpen4Ex) 0 2 300 301 302
    ⟨csL2, 0, 2, 0⟩ spsOpen4Ex csL2 rfl rfl rfl rfl (by decide) rfl

/-- A value produced by `getLast?` is a member of the list. -/
theorem getLast_opt_mem {α : Type} (l : List α) (a : α) (h : l.getLast? = some a) : a ∈ l := by
  obtain ⟨hne, rfl⟩ := List.mem_getLast?_eq_getLast h
  exact List.getLast_mem hne

/-- Sortedness of a mutation list is a property of the parameter values alone. -/
theorem sorted_mut_iff_map_t (ms : List Mutation) :
    List.Sorted MutLE ms ↔ List.Sorted (· ≤ ·) (ms.map fun m => m.t) := by
  unfold List.Sorted
  rw [List.pairwise_map]
  exact Iff.rfl

/-- Equal parameter images give equal last-parameter views. -/
theorem last_t_eq_of_map_t_eq (l1 l2 : List Mutation)
    (h : (l1.map fun m => m.t) = l2.map fun m => m.t) :
    l1.getLast?.map (fun m => m.t) = l2.getLast?.map fun m => m.t := by
  rw [← List.getLast?_map, ← List.getLast?_map, h]

/-- `forceToLine` never produces a closepath kind. -/
theorem forceToLine_ne_Z (m : Mutation) : (forceToLine m).svgChar ≠ SvgChar.Z := by
  unfold forceToLine
  by_cases h : m.svgChar = SvgChar.Z
  · rw [if_pos h]
    simp
  · rw [if_neg h]
    exact h

/-- The forcing loop leaves the list nonempty whenever it was. -/
theorem force_ne_nil (l : List Mutation) (h : l ≠ []) : forceSplitClosepathToLine l ≠ [] := by
  intro hx
  have hl := congrArg List.length (map_t_forceSplitClosepathToLine l)
  rw [hx] at hl
  simp at hl
  exact h (List.length_eq_zero.mp hl.symm)

/-- After the forcing loop no non-terminal mutation has closepath kind. -/
theorem force_dropLast_ne_Z :
    ∀ l : List Mutation, ∀ m ∈ (forceSplitClosepathToLine l).dropLast, m.svgChar ≠ SvgChar.Z
  | [], m, hm => by simp [forceSplitClosepathToLine] at hm
  | [m0], m, hm => by simp [forceSplitClosepathToLine] at hm
  | m0 :: m1 :: rest, m, hm => by
    rw [force_cons_of_ne_nil _ _ (by simp)] at hm
    have hne : forceSplitClosepathToLine (m1 :: rest) ≠ [] := force_ne_nil _ (by simp)
    obtain ⟨y, ys, hys⟩ := List.exists_cons_of_ne_nil hne
    rw [hys, List.dropLast_cons₂] at hm
    rcases List.mem_cons.mp hm with rfl | hm2
    · exact forceToLine_ne_Z m0
    · exact force_dropLast_ne_Z (m1 :: rest) m (by rw [hys]; exact hm2)

/-- `unconvertMutations` never changes the parameter values. -/
theorem map_t_unconvertMutations (bc : SvgChar) (ms : List Mutation) :
    ((unconvertMutations bc ms).map fun m => m.t) = ms.map fun m => m.t := by
  induction ms with
  | nil => rfl
  | cons m rest ih =>
    cases rest with
    | nil => rfl
    | cons y ys =>
      rw [show unconvertMutations bc (m :: y :: ys) =
        { m with svgChar := if bc = SvgChar.Z then SvgChar.L else bc } ::
          unconvertMutations bc (y :: ys) from rfl]
      simp [ih]

/-- For a closepath backing kind, `unconvertMutations` forces every
non-terminal mutation to a line. -/
theorem unconvert_dropLast_not_Z (hbc : SvgChar.Z = SvgChar.Z) :
    ∀ ms : List Mutation, ∀ m ∈ (unconvertMutations SvgChar.Z ms).dropLast,
      m.svgChar ≠ SvgChar.Z
  | [], m, hm => by simp [unconvertMutations] at hm
  | [m0], m, hm => by simp [unconvertMutations] at hm
  | m0 :: m1 :: rest, m, hm => by
    rw [show unconvertMutations SvgChar.Z (m0 :: m1 :: rest) =
      { m0 with svgChar := if SvgChar.Z = SvgChar.Z then SvgChar.L else SvgChar.Z } ::
        unconvertMutations SvgChar.Z (m1 :: rest) from rfl] at hm
    have hne : unconvertMutations SvgChar.Z (m1 :: rest) ≠ [] := by
      intro hx
      have hl := congrArg List.length (map_t_unconvertMutations SvgChar.Z (m1 :: rest))
      rw [hx] at hl
      simp at hl
    obtain ⟨y, ys, hys⟩ := List.exists_cons_of_ne_nil hne
    rw [hys, List.dropLast_cons₂] at hm
    rcases List.mem_cons.mp hm with rfl | hm2
    · simp
    · exact unconvert_dropLast_not_Z hbc (m1 :: rest) m (by rw [hys]; exact hm2)

/-- `foldl_insertMutation_perm`, generalized over the function building the
inserted mutation (the shape of the loop inside `split`). -/
theorem foldl_insert_fn_perm {α : Type} (g : α → Mutation) (bs : List α) :
    ∀ ms : List Mutation,
      (bs.foldl (fun acc b => insertMutation acc (g b)) ms).Perm (ms ++ bs.map g) := by
  induction bs with
  | nil => intro ms; simp
  | cons b bs ih =>
    intro ms
    have h0 := ((ih (insertMutation ms (g b))).trans
      ((insertMutation_perm ms (g b)).append_right (bs.map g))).trans List.perm_middle.symm
    simpa using h0

/-- `foldl_insertMutation_sorted`, generalized over the function building the
inserted mutation. -/
theorem foldl_insert_fn_sorted {α : Type} (g : α → Mutation) (bs : List α) :
    ∀ ms : List Mutation, List.Sorted MutLE ms →
      List.Sorted MutLE (bs.foldl (fun acc b => insertMutation acc (g b)) ms) := by
  induction bs with
  | nil => intro ms h; exact h
  | cons b bs ih =>
    intro ms h
    refine ih _ ?_
    show List.Sorted MutLE (insertMutation ms (g b))
    rw [insertMutation_eq_orderedInsert]
    exact List.Sorted.orderedInsert (g b) ms h

/-- Sorted insertion of a value no greater than the last element keeps the
last element. -/
theorem getLast_opt_orderedInsert_le :
    ∀ (ms : List Mutation) (x mL : Mutation), ms.getLast? = some mL → x.t ≤ mL.t →
      (ms.orderedInsert MutLE x).getLast? = some mL
  | [], x, mL, hlast, _ => by simp at hlast
  | b :: l, x, mL, hlast, hle => by
    by_cases hxb : MutLE x b
    · rw [List.orderedInsert, if_pos hxb, List.getLast?_cons_cons]
      exact hlast
    · rw [List.orderedInsert, if_neg hxb]
      cases l with
      | nil =>
        have hbm : b = mL := by simpa using hlast
        exact absurd (show MutLE x b by rw [show b = mL from hbm] at hxb ⊢; exact hle) hxb
      | cons c l2 =>
        rw [List.getLast?_cons_cons] at hlast
        have hrec := getLast_opt_orderedInsert_le (c :: l2) x mL hlast hle
        have hne : (c :: l2).orderedInsert MutLE x ≠ [] := by
          intro hx
          have hl := congrArg List.length hx
          rw [List.orderedInsert_length] at hl
          simp at hl
        obtain ⟨y, ys, hys⟩ := List.exists_cons_of_ne_nil hne
        rw [hys, List.getLast?_cons_cons, ← hys]
        exact hrec

/-- The loop inside `split` keeps the last element when every inserted
parameter stays at or below its parameter. -/
theorem getLast_opt_foldl_insert_fn {α : Type} (g : α → Mutation) (bs : List α) :
    ∀ (ms : List Mutation) (mL : Mutation), ms.getLast? = some mL →
      (∀ b ∈ bs, (g b).t ≤ mL.t) →
      (bs.foldl (fun acc b => insertMutation acc (g b)) ms).getLast? = some mL := by
  induction bs with
  | nil => intro ms mL h _; exact h
  | cons b bs ih =>
    intro ms mL h hb
    refine ih _ _ ?_ fun b2 hb2 => hb b2 (by simp [hb2])
    show (insertMutation ms (g b)).getLast? = some mL
    rw [insertMutation_eq_orderedInsert]
    exact getLast_opt_orderedInsert_le ms (g b) mL h (hb b (by simp))

/-- In a sorted mutation list every parameter is at most the last one. -/
theorem t_le_getLast_of_sorted :
    ∀ ms : List Mutation, List.Sorted MutLE ms → ∀ m ∈ ms, ∀ mL, ms.getLast? = some mL →
      m.t ≤ mL.t
  | [], _, m, hm, _, _ => by simp at hm
  | [b], _, m, hm, mL, hL => by
    have h1 : m = b := by simpa using hm
    have h2 : b = mL := by simpa using hL
    rw [h1, h2]
  | b :: c :: l, hs, m, hm, mL, hL => by
    rw [List.getLast?_cons_cons] at hL
    rcases List.mem_cons.mp hm with rfl | hm2
    · exact (List.sorted_cons.mp hs).1 mL (getLast_opt_mem _ mL hL)
    · exact t_le_getLast_of_sorted (c :: l) (List.sorted_cons.mp hs).2 m hm2 mL hL

/-- Dropping a strict prefix does not change the last element. -/
theorem getLast_opt_drop_of_lt {α : Type} :
    ∀ (l : List α) (k : ℕ), k < l.length → (l.drop k).getLast? = l.getLast?
  | _, 0, _ => by simp
  | [], k + 1, h => by simp at h
  | a :: rest, k + 1, h => by
    rw [List.drop_succ_cons]
    have hrl : k < rest.length := by simpa using h
    rw [getLast_opt_drop_of_lt rest k hrl]
    obtain ⟨y, ys, hys⟩ := List.exists_cons_of_ne_nil
      (List.length_pos.mp (by omega) : rest ≠ [])
    rw [hys]
    exact List.getLast?_cons_cons.symm

/-- Elements dropped-from-the-front then shorn of their last entry lie among
the original non-terminal elements. -/
theorem dropLast_drop_subset {α : Type} (l : List α) (k : ℕ) :
    ∀ m ∈ (l.drop k).dropLast, m ∈ l.dropLast := by
  intro m hm
  rw [List.dropLast_eq_take] at hm ⊢
  rw [List.length_drop] at hm
  have hrw : (l.drop k).take (l.length - k - 1) = (l.take (l.length - 1)).drop k := by
    rw [List.drop_take]
    congr 1
    omega
  rw [hrw] at hm
  exact List.drop_subset _ _ hm

/-- Writing back the value already stored at an index is the identity. -/
theorem list_set_getD_self {α : Type} :
    ∀ (l : List α) (i : ℕ) (d : α), i < l.length → l.set i (l.getD i d) = l
  | [], i, d, h => by simp at h
  | a :: rest, 0, d, _ => by simp
  | a :: rest, i + 1, d, h => by
    simp only [List.getD_cons_succ, List.set_cons_succ]
    rw [list_set_getD_self rest i d (by simpa using h)]

/-- The split boundary list read just past a valid index yields that
mutation parameter. -/
theorem tempSplits_getD_succ_eq (minT : ℚ) (ms : List Mutation) (i : ℕ)
    (hi : i < ms.length) :
    (tempSplits minT ms).getD (i + 1) 0 = (ms.get ⟨i, hi⟩).t := by
  simp [tempSplits, List.getD_eq_getElem?_getD, List.getElem?_map,
    List.getElem?_eq_getElem hi]

/-- For a sorted bounded mutation list the flanking split boundaries around a
valid index are ordered and lie inside the represented range. -/
theorem tempSplits_adjacent (minT maxT : ℚ) (ms : List Mutation)
    (hs : List.Sorted MutLE ms)
    (hb : ∀ m ∈ ms, minT ≤ m.t ∧ m.t ≤ maxT)
    (i : ℕ) (hi : i < ms.length) :
    minT ≤ (tempSplits minT ms).getD i 0 ∧
    (tempSplits minT ms).getD i 0 ≤ (tempSplits minT ms).getD (i + 1) 0 ∧
    (tempSplits minT ms).getD (i + 1) 0 ≤ maxT := by
  have he : (tempSplits minT ms).getD (i + 1) 0 = (ms.get ⟨i, hi⟩).t :=
    tempSplits_getD_succ_eq minT ms i hi
  refine ⟨?_, ?_, ?_⟩
  · cases i with
    | zero => exact le_refl minT
    | succ j =>
      have hj : j < ms.length := by omega
      rw [tempSplits_getD_succ_eq minT ms j hj]
      exact (hb _ (ms.get_mem _ _)).1
  · cases i with
    | zero =>
      rw [he]
      exact (hb _ (ms.get_mem _ _)).1
    | succ j =>
      have hj : j < ms.length := by omega
      rw [he, tempSplits_getD_succ_eq minT ms j hj]
      exact List.pairwise_iff_get.mp hs ⟨j, hj⟩ ⟨j + 1, hi⟩ (by simp)
  · rw [he]
    exact (hb _ (ms.get_mem _ _)).2


/-- `build` hands the mutator fields through to the new command state. -/
theorem build_mutations (mu : CommandStateMutator) : mu.build.mutations = mu.mutations := rfl

theorem build_minT (mu : CommandStateMutator) : mu.build.minT = mu.minT := rfl

theorem build_maxT (mu : CommandStateMutator) : mu.build.maxT = mu.maxT := rfl

theorem build_backing (mu : CommandStateMutator) :
    mu.build.backingCommand = mu.backingCommand := rfl

/-- `mutate` copies the command state fields into the mutator. -/
theorem mutate_mutations (cs : CommandState) : cs.mutate.mutations = cs.mutations := rfl

theorem mutate_minT (cs : CommandState) : cs.mutate.minT = cs.minT := rfl

theorem mutate_maxT (cs : CommandState) : cs.mutate.maxT = cs.maxT := rfl

theorem mutate_backing (cs : CommandState) :
    cs.mutate.backingCommand = cs.backingCommand := rfl

/-- On a nonempty parameter list and a non-moveto backing command, `split`
performs the insertion loop followed by the forcing loop. -/
theorem split_mutations_of_not (mu : CommandStateMutator) (tsIds : List (ℚ × ℕ))
    (hcond : ¬ (tsIds.isEmpty ∨ mu.backingCommand.svgChar = SvgChar.M)) :
    (mu.split tsIds).mutations =
      forceSplitClosepathToLine
        (tsIds.foldl (fun acc b => insertMutation acc (splitMut mu b)) mu.mutations) := by
  unfold CommandStateMutator.split
  rw [if_neg hcond]
  rfl

/-- The invariant conditions survive the private `split` on a nonempty
mutation list with all inserted parameters inside the represented range. -/
theorem mutationInvariant_split_build (mu : CommandStateMutator) (tsIds : List (ℚ × ℕ))
    (ha : List.Sorted MutLE mu.mutations)
    (hb : ∀ m ∈ mu.mutations, mu.minT ≤ m.t ∧ m.t ≤ mu.maxT)
    (hc : ∀ m, mu.mutations.getLast? = some m → m.t = mu.maxT)
    (hd : mu.backingCommand.svgChar = SvgChar.Z →
      ∀ m ∈ mu.mutations.dropLast, m.svgChar ≠ SvgChar.Z)
    (he : mu.minT ≤ mu.maxT)
    (hne : mu.mutations ≠ [])
    (hts : ∀ p ∈ tsIds, mu.minT ≤ p.1 ∧ p.1 ≤ mu.maxT) :
    MutationInvariant (mu.split tsIds).build := by
  obtain ⟨hfb, hfc, hfmin, hfmax⟩ := split_preserves_frame mu tsIds
  unfold MutationInvariant
  rw [build_mutations, build_minT, build_maxT, build_backing, hfb, hfmin, hfmax]
  by_cases hcond : tsIds.isEmpty ∨ mu.backingCommand.svgChar = SvgChar.M
  · have hmut : (mu.split tsIds).mutations = mu.mutations := by
      unfold CommandStateMutator.split
      rw [if_pos hcond]
    rw [hmut]
    exact ⟨ha, hb, hc, hd, he⟩
  · rw [split_mutations_of_not mu tsIds hcond]
    have hFs : List.Sorted MutLE
        (tsIds.foldl (fun acc b => insertMutation acc (splitMut mu b)) mu.mutations) :=
      foldl_insert_fn_sorted (splitMut mu) tsIds mu.mutations ha
    have hperm := foldl_insert_fn_perm (splitMut mu) tsIds mu.mutations
    refine ⟨?_, ?_, ?_, ?_, he⟩
    · rw [sorted_mut_iff_map_t, map_t_forceSplitClosepathToLine]
      exact (sorted_mut_iff_map_t _).mp hFs
    · intro m hm
      have hmt : m.t ∈
          (tsIds.foldl (fun acc b => insertMutation acc (splitMut mu b)) mu.mutations).map
            (fun m => m.t) := by
        rw [← map_t_forceSplitClosepathToLine]
        exact List.mem_map_of_mem _ hm
      obtain ⟨m2, hm2, hm2t⟩ := List.mem_map.mp hmt
      rw [← hm2t]
      rcases List.mem_append.mp (hperm.mem_iff.mp hm2) with hmem | hmem
      · exact hb m2 hmem
      · obtain ⟨p, hp, hpe⟩ := List.mem_map.mp hmem
        rw [← hpe]
        exact hts p hp
    · intro m hm
      obtain ⟨mL, hmL⟩ := Option.isSome_iff_exists.mp (List.getLast?_isSome.mpr hne)
      have hmLt : mL.t = mu.maxT := hc mL hmL
      have hFlast := getLast_opt_foldl_insert_fn (splitMut mu) tsIds mu.mutations mL hmL
        (fun b hbmem => by rw [hmLt]; exact (hts b hbmem).2)
      have hmap := last_t_eq_of_map_t_eq
        (forceSplitClosepathToLine
          (tsIds.foldl (fun acc b => insertMutation acc (splitMut mu b)) mu.mutations))
        (tsIds.foldl (fun acc b => insertMutation acc (splitMut mu b)) mu.mutations)
        (map_t_forceSplitClosepathToLine _)
      rw [hm, hFlast] at hmap
      have hmap2 : m.t = mL.t := by simpa using hmap
      rw [hmap2, hmLt]
    · intro _
      exact force_dropLast_ne_Z _

/-- A freshly constructed command state satisfies the invariant. -/
theorem mutationInvariant_fresh (backing : Cmd) (cal : Calculator) :
    MutationInvariant (CommandState.fresh backing cal) := by
  refine ⟨?_, ?_, ?_, ?_, ?_⟩
  · simp [CommandState.fresh]
  · intro m hm
    simp only [CommandState.fresh, List.mem_singleton] at hm
    rw [hm]
    show (0 : ℚ) ≤ 1 ∧ (1 : ℚ) ≤ 1
    norm_num
  · intro m hm
    simp only [CommandState.fresh, List.getLast?_singleton, Option.some.injEq] at hm
    rw [← hm]
    rfl
  · intro _ m hm
    simp [CommandState.fresh] at hm
  · show (0 : ℚ) ≤ 1
    norm_num

/-- The invariant survives `splitAtIndex` at a valid index with local
parameters in `[0, 1]`. -/
theorem mutationInvariant_splitAtIndexOp (cs : CommandState) (i : ℕ) (tsIds : List (ℚ × ℕ))
    (hInv : MutationInvariant cs) (hi : i < cs.mutations.length)
    (hts : ∀ p ∈ tsIds, 0 ≤ p.1 ∧ p.1 ≤ 1) :
    MutationInvariant (cs.splitAtIndexOp i tsIds) := by
  obtain ⟨ha, hb, hc, hd, he⟩ := hInv
  obtain ⟨h1, h2, h3⟩ := tempSplits_adjacent cs.minT cs.maxT cs.mutations ha hb i hi
  have hne : cs.mutations ≠ [] := List.length_pos.mp (by omega)
  have hts2 : ∀ p ∈ tsIds.map fun ti =>
      (lerp ((tempSplits cs.minT cs.mutations).getD i 0)
        ((tempSplits cs.minT cs.mutations).getD (i + 1) 0) ti.1, ti.2),
      cs.minT ≤ p.1 ∧ p.1 ≤ cs.maxT := by
    intro p hp
    obtain ⟨ti, hti, hpe⟩ := List.mem_map.mp hp
    obtain ⟨ht0, ht1⟩ := hts ti hti
    have hpe1 : p.1 = lerp ((tempSplits cs.minT cs.mutations).getD i 0)
        ((tempSplits cs.minT cs.mutations).getD (i + 1) 0) ti.1 := by
      rw [← hpe]
    rw [hpe1]
    unfold lerp
    constructor
    · nlinarith [mul_nonneg (sub_nonneg.mpr h2) ht0]
    · nlinarith [mul_nonneg (sub_nonneg.mpr h2) (sub_nonneg.mpr ht1)]
  exact mutationInvariant_split_build cs.mutate
    (tsIds.map fun ti =>
      (lerp ((tempSplits cs.minT cs.mutations).getD i 0)
        ((tempSplits cs.minT cs.mutations).getD (i + 1) 0) ti.1, ti.2))
    ha hb hc hd he hne hts2

/-- The invariant survives `splitInHalfAtIndex` at a valid index whenever the
calculator's `findTimeByDistance` answer stays inside the represented range. -/
theorem mutationInvariant_splitInHalfAtIndexOp (cs : CommandState) (i newId : ℕ)
    (hInv : MutationInvariant cs) (hi : i < cs.mutations.length)
    (hfd : cs.minT ≤ halfSplitParam cs i ∧ halfSplitParam cs i ≤ cs.maxT) :
    MutationInvariant (cs.splitInHalfAtIndexOp i newId) := by
  obtain ⟨ha, hb, hc, hd, he⟩ := hInv
  have hne : cs.mutations ≠ [] := List.length_pos.mp (by omega)
  have hts2 : ∀ p ∈ [(halfSplitParam cs i, newId)], cs.minT ≤ p.1 ∧ p.1 ≤ cs.maxT := by
    intro p hp
    rw [List.mem_singleton] at hp
    rw [hp]
    exact hfd
  exact mutationInvariant_split_build cs.mutate [(halfSplitParam cs i, newId)]
    ha hb hc hd he hne hts2

/-- The invariant survives `unsplitAtIndex` at a non-terminal index. -/
theorem mutationInvariant_unsplitAtIndexOp (cs : CommandState) (i : ℕ)
    (hInv : MutationInvariant cs) (hi : i + 1 < cs.mutations.length) :
    MutationInvariant (cs.unsplitAtIndexOp i) := by
  obtain ⟨ha, hb, hc, hd, he⟩ := hInv
  have herase : cs.mutations.eraseIdx i = cs.mutations.take i ++ cs.mutations.drop (i + 1) :=
    List.eraseIdx_eq_take_drop_succ _ _
  have hdropne : cs.mutations.drop (i + 1) ≠ [] := by
    intro hx
    have h9 := congrArg List.length hx
    simp at h9
    omega
  refine ⟨?_, ?_, ?_, ?_, he⟩
  · show List.Sorted MutLE (cs.mutations.eraseIdx i)
    exact List.Pairwise.sublist (List.eraseIdx_sublist _ _) ha
  · show ∀ m ∈ cs.mutations.eraseIdx i, cs.minT ≤ m.t ∧ m.t ≤ cs.maxT
    intro m hm
    exact hb m ((List.eraseIdx_sublist cs.mutations i).subset hm)
  · show ∀ m, (cs.mutations.eraseIdx i).getLast? = some m → m.t = cs.maxT
    intro m hm
    rw [herase, List.getLast?_append_of_ne_nil _ hdropne,
      getLast_opt_drop_of_lt _ _ hi] at hm
    exact hc m hm
  · show cs.backingCommand.svgChar = SvgChar.Z →
      ∀ m ∈ (cs.mutations.eraseIdx i).dropLast, m.svgChar ≠ SvgChar.Z
    intro hz m hm
    rw [herase, List.dropLast_append_of_ne_nil _ hdropne] at hm
    rcases List.mem_append.mp hm with hmem | hmem
    · exact hd hz m (mem_dropLast_of_mem_take cs.mutations i (by omega) m hmem)
    · exact hd hz m (dropLast_drop_subset _ _ m hmem)

/-- The invariant survives `convertAtIndex` at a valid index with a
non-closepath target kind. -/
theorem mutationInvariant_convertAtIndexOp (cs : CommandState) (i : ℕ) (c : SvgChar)
    (hInv : MutationInvariant cs) (hi : i < cs.mutations.length) (hcz : c ≠ SvgChar.Z) :
    MutationInvariant (cs.convertAtIndexOp i c) := by
  obtain ⟨ha, hb, hc, hd, he⟩ := hInv
  have hmapt : ((cs.mutations.set i
      { cs.mutations.getD i ⟨0, 0, c⟩ with svgChar := c }).map fun m => m.t) =
      cs.mutations.map fun m => m.t := by
    rw [List.map_set]
    have hv : ({ cs.mutations.getD i ⟨0, 0, c⟩ with svgChar := c } : Mutation).t =
        (cs.mutations.map fun m => m.t).getD i 0 := by
      show (cs.mutations.getD i ⟨0, 0, c⟩).t = (cs.mutations.map fun m => m.t).getD i 0
      rw [List.getD_eq_getElem?_getD, List.getD_eq_getElem?_getD, List.getElem?_map,
        List.getElem?_eq_getElem hi]
      rfl
    rw [hv, list_set_getD_self _ _ _ (by simpa using hi)]
  have hold : cs.mutations.getD i ⟨0, 0, c⟩ = cs.mutations.get ⟨i, hi⟩ := by
    rw [List.getD_eq_getElem?_getD, List.getElem?_eq_getElem hi]
    rfl
  refine ⟨?_, ?_, ?_, ?_, he⟩
  · show List.Sorted MutLE
      (cs.mutations.set i { cs.mutations.getD i ⟨0, 0, c⟩ with svgChar := c })
    rw [sorted_mut_iff_map_t, hmapt, ← sorted_mut_iff_map_t]
    exact ha
  · show ∀ m ∈ cs.mutations.set i { cs.mutations.getD i ⟨0, 0, c⟩ with svgChar := c },
      cs.minT ≤ m.t ∧ m.t ≤ cs.maxT
    intro m hm
    rcases List.mem_or_eq_of_mem_set hm with hmem | hmem
    · exact hb m hmem
    · rw [hmem]
      show cs.minT ≤ (cs.mutations.getD i ⟨0, 0, c⟩).t ∧
        (cs.mutations.getD i ⟨0, 0, c⟩).t ≤ cs.maxT
      rw [hold]
      exact hb _ (cs.mutations.get_mem _ _)
  · show ∀ m,
      (cs.mutations.set i { cs.mutations.getD i ⟨0, 0, c⟩ with svgChar := c }).getLast? =
        some m → m.t = cs.maxT
    intro m hm
    have hlast := last_t_eq_of_map_t_eq
      (cs.mutations.set i { cs.mutations.getD i ⟨0, 0, c⟩ with svgChar := c })
      cs.mutations hmapt
    rw [hm] at hlast
    have hne : cs.mutations ≠ [] := List.length_pos.mp (by omega)
    obtain ⟨mL, hmL⟩ := Option.isSome_iff_exists.mp (List.getLast?_isSome.mpr hne)
    rw [hmL] at hlast
    have hmt : m.t = mL.t := by simpa using hlast
    rw [hmt]
    exact hc mL hmL
  · show cs.backingCommand.svgChar = SvgChar.Z →
      ∀ m ∈ (cs.mutations.set i
        { cs.mutations.getD i ⟨0, 0, c⟩ with svgChar := c }).dropLast,
        m.svgChar ≠ SvgChar.Z
    intro hz m hm
    have hset : cs.mutations.set i { cs.mutations.getD i ⟨0, 0, c⟩ with svgChar := c } =
        cs.mutations.take i ++
          { cs.mutations.getD i ⟨0, 0, c⟩ with svgChar := c } :: cs.mutations.drop (i + 1) := by
      rw [List.set_eq_take_append_cons_drop, if_pos hi]
    rw [hset, List.dropLast_append_of_ne_nil _ (by simp)] at hm
    rcases List.mem_append.mp hm with hmem | hmem
    · exact hd hz m (mem_dropLast_of_mem_take _ i (by omega) m hmem)
    · cases hdrop : cs.mutations.drop (i + 1) with
      | nil =>
        rw [hdrop] at hmem
        simp at hmem
      | cons y ys =>
        rw [hdrop, List.dropLast_cons₂] at hmem
        rcases List.mem_cons.mp hmem with hmv | hmem2
        · rw [hmv]
          exact hcz
        · exact hd hz m (dropLast_drop_subset _ _ m (by rw [hdrop]; exact hmem2))

/-- The invariant survives `unconvertSubpath`. -/
theorem mutationInvariant_unconvertSubpathOp (cs : CommandState)
    (hInv : MutationInvariant cs) : MutationInvariant cs.unconvertSubpathOp := by
  obtain ⟨ha, hb, hc, hd, he⟩ := hInv
  have hmapt := map_t_unconvertMutations cs.backingCommand.svgChar cs.mutations
  refine ⟨?_, ?_, ?_, ?_, he⟩
  · show List.Sorted MutLE (unconvertMutations cs.backingCommand.svgChar cs.mutations)
    rw [sorted_mut_iff_map_t, hmapt, ← sorted_mut_iff_map_t]
    exact ha
  · show ∀ m ∈ unconvertMutations cs.backingCommand.svgChar cs.mutations,
      cs.minT ≤ m.t ∧ m.t ≤ cs.maxT
    intro m hm
    have hmt : m.t ∈ cs.mutations.map fun m2 => m2.t := by
      rw [← hmapt]
      exact List.mem_map_of_mem _ hm
    obtain ⟨m2, hm2, hm2t⟩ := List.mem_map.mp hmt
    rw [← hm2t]
    exact hb m2 hm2
  · show ∀ m, (unconvertMutations cs.backingCommand.svgChar cs.mutations).getLast? =
      some m → m.t = cs.maxT
    intro m hm
    have hlast := last_t_eq_of_map_t_eq
      (unconvertMutations cs.backingCommand.svgChar cs.mutations) cs.mutations hmapt
    rw [hm] at hlast
    cases hL : cs.mutations.getLast? with
    | none =>
      rw [hL] at hlast
      simp at hlast
    | some mL =>
      rw [hL] at hlast
      have hmt : m.t = mL.t := by simpa using hlast
      rw [hmt]
      exact hc mL hL
  · show cs.backingCommand.svgChar = SvgChar.Z →
      ∀ m ∈ (unconvertMutations cs.backingCommand.svgChar cs.mutations).dropLast,
        m.svgChar ≠ SvgChar.Z
    intro hz m hm
    rw [hz] at hm
    exact unconvert_dropLast_not_Z rfl cs.mutations m hm

/-- The invariant survives `forkLeft` at a valid index: the range shrinks to
`[minT, t_i]` and the kept prefix ends exactly at the new `maxT`. -/
theorem mutationInvariant_forkLeft (cs : CommandState) (i : ℕ)
    (hInv : MutationInvariant cs) (hi : i < cs.mutations.length) :
    MutationInvariant (cs.fork i).1 := by
  obtain ⟨ha, hb, hc, hd, he⟩ := hInv
  have hgd : cs.mutations.getD i ⟨0, cs.maxT, SvgChar.L⟩ = cs.mutations.get ⟨i, hi⟩ := by
    rw [List.getD_eq_getElem?_getD, List.getElem?_eq_getElem hi]
    rfl
  refine ⟨?_, ?_, ?_, ?_, ?_⟩
  · show List.Sorted MutLE (cs.mutations.take (i + 1))
    exact List.Pairwise.sublist (List.take_sublist _ _) ha
  · show ∀ m ∈ cs.mutations.take (i + 1),
      cs.minT ≤ m.t ∧ m.t ≤ (cs.mutations.getD i ⟨0, cs.maxT, SvgChar.L⟩).t
    intro m hm
    refine ⟨(hb m (List.take_subset _ _ hm)).1, ?_⟩
    rw [hgd]
    obtain ⟨j, hj, hje⟩ := List.mem_iff_getElem.mp hm
    have hji : j ≤ i := by
      rw [List.length_take] at hj
      omega
    have hjlen : j < cs.mutations.length := by omega
    have hjm : cs.mutations.get ⟨j, hjlen⟩ = m := by
      rw [← hje, List.get_eq_getElem]
      exact (List.getElem_take cs.mutations).symm
    rcases lt_or_eq_of_le hji with hlt | heq
    · rw [← hjm]
      exact List.pairwise_iff_get.mp ha ⟨j, hjlen⟩ ⟨i, hi⟩ (Fin.mk_lt_mk.mpr hlt)
    · subst heq
      rw [← hjm]
  · show ∀ m, (cs.mutations.take (i + 1)).getLast? = some m →
      m.t = (cs.mutations.getD i ⟨0, cs.maxT, SvgChar.L⟩).t
    intro m hm
    have hlen : (cs.mutations.take (i + 1)).length = i + 1 := by
      rw [List.length_take]
      omega
    rw [List.getLast?_eq_getElem?, hlen] at hm
    simp only [Nat.add_sub_cancel] at hm
    rw [List.getElem?_take_of_lt (by omega), List.getElem?_eq_getElem hi] at hm
    have hme : cs.mutations.get ⟨i, hi⟩ = m := by simpa using hm
    rw [hgd, ← hme]
  · show cs.backingCommand.svgChar = SvgChar.Z →
      ∀ m ∈ (cs.mutations.take (i + 1)).dropLast, m.svgChar ≠ SvgChar.Z
    intro hz m hm
    rw [List.dropLast_eq_take, List.length_take, List.take_take] at hm
    have hminq : min (min (i + 1) cs.mutations.length - 1) (i + 1) = i := by omega
    rw [hminq] at hm
    exact hd hz m (mem_dropLast_of_mem_take _ i (by omega) m hm)
  · show cs.minT ≤ (cs.mutations.getD i ⟨0, cs.maxT, SvgChar.L⟩).t
    rw [hgd]
    exact (hb _ (cs.mutations.get_mem _ _)).1

/-- The invariant survives `forkRight` at a valid index: the range shrinks to
`[t_i, maxT]` and the kept suffix still ends at `maxT`. -/
theorem mutationInvariant_forkRight (cs : CommandState) (i : ℕ)
    (hInv : MutationInvariant cs) (hi : i < cs.mutations.length) :
    MutationInvariant (cs.fork i).2 := by
  obtain ⟨ha, hb, hc, hd, he⟩ := hInv
  have hgd : cs.mutations.getD i ⟨0, cs.minT, SvgChar.L⟩ = cs.mutations.get ⟨i, hi⟩ := by
    rw [List.getD_eq_getElem?_getD, List.getElem?_eq_getElem hi]
    rfl
  refine ⟨?_, ?_, ?_, ?_, ?_⟩
  · show List.Sorted MutLE (cs.mutations.drop (i + 1))
    exact List.Pairwise.sublist (List.drop_sublist _ _) ha
  · show ∀ m ∈ cs.mutations.drop (i + 1),
      (cs.mutations.getD i ⟨0, cs.minT, SvgChar.L⟩).t ≤ m.t ∧ m.t ≤ cs.maxT
    intro m hm
    refine ⟨?_, (hb m (List.drop_subset _ _ hm)).2⟩
    rw [hgd]
    obtain ⟨j, hj, hje⟩ := List.mem_iff_getElem.mp hm
    have hjlen : i + 1 + j < cs.mutations.length := by
      rw [List.length_drop] at hj
      omega
    have hjm : cs.mutations.get ⟨i + 1 + j, hjlen⟩ = m := by
      rw [← hje, List.get_eq_getElem]
      exact (List.getElem_drop cs.mutations).symm
    rw [← hjm]
    exact List.pairwise_iff_get.mp ha ⟨i, hi⟩ ⟨i + 1 + j, hjlen⟩ (Fin.mk_lt_mk.mpr (by omega))
  · show ∀ m, (cs.mutations.drop (i + 1)).getLast? = some m → m.t = cs.maxT
    intro m hm
    by_cases hlen : i + 1 < cs.mutations.length
    · rw [getLast_opt_drop_of_lt _ _ hlen] at hm
      exact hc m hm
    · rw [List.drop_eq_nil_of_le (by omega)] at hm
      simp at hm
  · show cs.backingCommand.svgChar = SvgChar.Z →
      ∀ m ∈ (cs.mutations.drop (i + 1)).dropLast, m.svgChar ≠ SvgChar.Z
    intro hz m hm
    exact hd hz m (dropLast_drop_subset _ _ m hm)
  · show (cs.mutations.getD i ⟨0, cs.minT, SvgChar.L⟩).t ≤ cs.maxT
    rw [hgd]
    exact (hb _ (cs.mutations.get_mem _ _)).2

/-- The invariant survives `merge` of two adjacent halves of one backing
command: range union, sorted union of the mutations, and — in the
closepath-backed case — uniqueness of the terminal parameter keeps the
closepath kind terminal. -/
theorem mutationInvariant_mergeOp (cs other : CommandState)
    (hInv : MutationInvariant cs) (hInvO : MutationInvariant other)
    (hbk : other.backingCommand = cs.backingCommand)
    (hne : other.mutations ≠ [])
    ( _hmin : other.minT = cs.maxT)
    (hlt : cs.maxT < other.maxT)
    (hzs : cs.backingCommand.svgChar = SvgChar.Z →
      ∀ m ∈ cs.mutations, m.svgChar ≠ SvgChar.Z)
    (hzd : cs.backingCommand.svgChar = SvgChar.Z →
      ∀ m ∈ other.mutations.dropLast, m.t ≠ other.maxT) :
    MutationInvariant (cs.mergeOp other) := by
  obtain ⟨ha, hb, hc, hd, he⟩ := hInv
  obtain ⟨ha2, hb2, hc2, hd2, he2⟩ := hInvO
  have hperm : (other.mutations.foldl insertMutation cs.mutations).Perm
      (cs.mutations ++ other.mutations) :=
    foldl_insertMutation_perm other.mutations cs.mutations
  have hsort : List.Sorted MutLE (other.mutations.foldl insertMutation cs.mutations) :=
    foldl_insertMutation_sorted other.mutations cs.mutations ha
  have hmax : max cs.maxT other.maxT = other.maxT := max_eq_right hlt.le
  obtain ⟨mO, hmO⟩ := Option.isSome_iff_exists.mp (List.getLast?_isSome.mpr hne)
  have hmOt : mO.t = other.maxT := hc2 mO hmO
  have hmOmem : mO ∈ other.mutations := getLast_opt_mem _ mO hmO
  have hmOM : mO ∈ other.mutations.foldl insertMutation cs.mutations :=
    hperm.mem_iff.mpr (List.mem_append.mpr (Or.inr hmOmem))
  have hMne : other.mutations.foldl insertMutation cs.mutations ≠ [] :=
    List.ne_nil_of_mem hmOM
  have hbM : ∀ m ∈ other.mutations.foldl insertMutation cs.mutations,
      min cs.minT other.minT ≤ m.t ∧ m.t ≤ other.maxT := by
    intro m hm
    rcases List.mem_append.mp (hperm.mem_iff.mp hm) with hmem | hmem
    · exact ⟨le_trans (min_le_left _ _) (hb m hmem).1, le_trans (hb m hmem).2 hlt.le⟩
    · exact ⟨le_trans (min_le_right _ _) (hb2 m hmem).1, (hb2 m hmem).2⟩
  obtain ⟨mL, hmL⟩ := Option.isSome_iff_exists.mp (List.getLast?_isSome.mpr hMne)
  have hmLt : mL.t = other.maxT := by
    have h1 : mO.t ≤ mL.t := t_le_getLast_of_sorted _ hsort mO hmOM mL hmL
    rw [hmOt] at h1
    exact le_antisymm (hbM mL (getLast_opt_mem _ mL hmL)).2 h1
  refine ⟨?_, ?_, ?_, ?_, ?_⟩
  · show List.Sorted MutLE (other.mutations.foldl insertMutation cs.mutations)
    exact hsort
  · show ∀ m ∈ other.mutations.foldl insertMutation cs.mutations,
      min cs.minT other.minT ≤ m.t ∧ m.t ≤ max cs.maxT other.maxT
    intro m hm
    rw [hmax]
    exact hbM m hm
  · show ∀ m, (other.mutations.foldl insertMutation cs.mutations).getLast? = some m →
      m.t = max cs.maxT other.maxT
    intro m hm
    rw [hmax]
    rw [hmL] at hm
    rw [← Option.some_inj.mp hm]
    exact hmLt
  · show cs.backingCommand.svgChar = SvgChar.Z →
      ∀ m ∈ (other.mutations.foldl insertMutation cs.mutations).dropLast,
        m.svgChar ≠ SvgChar.Z
    intro hz m hm
    by_contra hmz
    have hmM : m ∈ other.mutations.foldl insertMutation cs.mutations :=
      (List.dropLast_sublist _).subset hm
    have hmnotcs : m ∉ cs.mutations := fun hx => hzs hz m hx hmz
    have hmother : m ∈ other.mutations := by
      rcases List.mem_append.mp (hperm.mem_iff.mp hmM) with hmem | hmem
      · exact absurd hmem hmnotcs
      · exact hmem
    have hzother : other.backingCommand.svgChar = SvgChar.Z := by
      rw [hbk]
      exact hz
    have hmnotdrop : m ∉ other.mutations.dropLast := fun hx => hd2 hzother m hx hmz
    have hsplit : other.mutations.dropLast ++ [other.mutations.getLast hne] =
        other.mutations := List.dropLast_append_getLast hne
    have hmlast : m = other.mutations.getLast hne := by
      rcases List.mem_append.mp (by rw [hsplit]; exact hmother) with h9 | h9
      · exact absurd h9 hmnotdrop
      · simpa using h9
    have hmt : m.t = other.maxT := by
      rw [hmlast]
      exact hc2 _ (List.getLast?_eq_getLast _ hne)
    have hcount : (other.mutations.foldl insertMutation cs.mutations).countP
        (fun x => decide (x.t = other.maxT)) =
        cs.mutations.countP (fun x => decide (x.t = other.maxT)) +
          other.mutations.countP (fun x => decide (x.t = other.maxT)) := by
      rw [hperm.countP_eq, List.countP_append]
    have hcs0 : cs.mutations.countP (fun x => decide (x.t = other.maxT)) = 0 := by
      rw [List.countP_eq_zero]
      intro a hax
      simp only [decide_eq_true_eq]
      intro hEq
      have h9 := (hb a hax).2
      rw [hEq] at h9
      exact absurd h9 (not_le.mpr hlt)
    have hoth1 : other.mutations.countP (fun x => decide (x.t = other.maxT)) = 1 := by
      rw [← hsplit, List.countP_append]
      have hdrop0 : other.mutations.dropLast.countP (fun x => decide (x.t = other.maxT)) = 0 := by
        rw [List.countP_eq_zero]
        intro a hax
        simp only [decide_eq_true_eq]
        exact hzd hz a hax
      have hplast : (fun x => decide (x.t = other.maxT)) (other.mutations.getLast hne) = true := by
        simp only [decide_eq_true_eq]
        exact hc2 _ (List.getLast?_eq_getLast _ hne)
      rw [hdrop0]
      simp [List.countP_cons, hplast]
    have hMsplit : (other.mutations.foldl insertMutation cs.mutations).dropLast ++
        [(other.mutations.foldl insertMutation cs.mutations).getLast hMne] =
        other.mutations.foldl insertMutation cs.mutations :=
      List.dropLast_append_getLast hMne
    have hMlastt : ((other.mutations.foldl insertMutation cs.mutations).getLast hMne).t =
        other.maxT := by
      have h9 := List.getLast?_eq_getLast (other.mutations.foldl insertMutation cs.mutations) hMne
      rw [hmL] at h9
      rw [← Option.some_inj.mp h9]
      exact hmLt
    have hdropPos : 0 < (other.mutations.foldl insertMutation cs.mutations).dropLast.countP
        (fun x => decide (x.t = other.maxT)) := by
      rw [List.countP_pos_iff]
      exact ⟨m, hm, by simp only [decide_eq_true_eq]; exact hmt⟩
    have hMcount : 2 ≤ (other.mutations.foldl insertMutation cs.mutations).countP
        (fun x => decide (x.t = other.maxT)) := by
      have hq : decide (((other.mutations.foldl insertMutation cs.mutations).getLast hMne).t =
          other.maxT) = true := decide_eq_true hMlastt
      conv_rhs => rw [← hMsplit]
      rw [List.countP_append]
      have h1last : List.countP (fun x => decide (x.t = other.maxT))
          [(other.mutations.foldl insertMutation cs.mutations).getLast hMne] = 1 := by
        rw [List.countP_cons, List.countP_nil, hq]
        rfl
      rw [h1last]
      omega
    rw [hcount, hcs0, hoth1] at hMcount
    omega
  · show min cs.minT other.minT ≤ max cs.maxT other.maxT
    exact le_trans (min_le_left _ _) (le_trans he (le_max_left _ _))

/-- The invariant survives `revert` on a state that still has a mutation. -/
theorem mutationInvariant_revertOp (cs cs2 : CommandState)
    (hInv : MutationInvariant cs) (hr : cs.revertOp = some cs2) :
    MutationInvariant cs2 := by
  obtain ⟨ha, hb, hc, hd, he⟩ := hInv
  cases hL : cs.mutations.getLast? with
  | none =>
    unfold CommandState.revertOp CommandStateMutator.revert at hr
    rw [show cs.mutate.mutations = cs.mutations from rfl, hL] at hr
    simp at hr
  | some last0 =>
    unfold CommandState.revertOp CommandStateMutator.revert at hr
    rw [show cs.mutate.mutations = cs.mutations from rfl, hL] at hr
    have hr3 : ({ cs.mutate with
        mutations := [⟨last0.id, cs.mutate.maxT, cs.mutate.backingCommand.svgChar⟩] } :
          CommandStateMutator).build = cs2 := Option.some_inj.mp hr
    rw [← hr3]
    refine ⟨?_, ?_, ?_, ?_, ?_⟩
    · show List.Sorted MutLE [(⟨last0.id, cs.maxT, cs.backingCommand.svgChar⟩ : Mutation)]
      exact List.sorted_singleton _
    · show ∀ m ∈ [(⟨last0.id, cs.maxT, cs.backingCommand.svgChar⟩ : Mutation)],
        cs.minT ≤ m.t ∧ m.t ≤ cs.maxT
      intro m hm
      rw [List.mem_singleton] at hm
      rw [hm]
      exact ⟨he, le_refl _⟩
    · show ∀ m, ([(⟨last0.id, cs.maxT, cs.backingCommand.svgChar⟩ : Mutation)]).getLast? =
        some m → m.t = cs.maxT
      intro m hm
      rw [List.getLast?_singleton] at hm
      rw [← Option.some_inj.mp hm]
    · intro hz m hm
      have hm2 : m ∈ ([(⟨last0.id, cs.maxT, cs.backingCommand.svgChar⟩ : Mutation)] :
          List Mutation).dropLast := hm
      simp at hm2
    · exact he

/-- Claim C4 counterexample: the state obtained from a fresh line-backed
command state by splitting its only range at local parameter `0` and then
taking the left fork is reachable through the public mutation operations, yet
its last mutation has `t = 0`, not `t = 1` — forking pins `maxT` to the
forked mutation's parameter, so "the last mutation always has `t = 1`" fails. -/
theorem reach_last_t_one_counterexample :
    Reach ((csLineEx.splitAtIndexOp 0 [(0, 301)]).fork 0).1 ∧
    ∃ m, ((csLineEx.splitAtIndexOp 0 [(0, 301)]).fork 0).1.mutations.getLast? = some m ∧
      ¬ m.t = 1 := by
  have hmut : (csLineEx.splitAtIndexOp 0 [(0, 301)]).mutations =
      [⟨301, 0, SvgChar.L⟩, ⟨101, 1, SvgChar.L⟩] := by
    norm_num [CommandState.splitAtIndexOp, CommandStateMutator.splitAtIndex,
      CommandStateMutator.split, CommandState.mutate, CommandStateMutator.build,
      csLineEx, lineCmdO, CommandState.fresh, tempSplits, lerp, sortedIndexQ,
      sortedInsertionIdx, insertMutation, List.takeWhile, List.insertIdx,
      forceSplitClosepathToLine, forceToLine]
    rw [if_neg (by decide : ¬ SvgChar.L = SvgChar.M)]
  have hfork : ((csLineEx.splitAtIndexOp 0 [(0, 301)]).fork 0).1.mutations =
      [⟨301, 0, SvgChar.L⟩] := by
    have h0 : ((csLineEx.splitAtIndexOp 0 [(0, 301)]).fork 0).1.mutations =
        (csLineEx.splitAtIndexOp 0 [(0, 301)]).mutations.take 1 := rfl
    rw [h0, hmut]
    rfl
  refine ⟨?_, ?_⟩
  · refine Reach.forkL
      (Reach.splitAt (Reach.init lineCmdO (pointCalculator ptO)) 0 [(0, 301)] ?_ ?_) 0 ?_
    · decide
    · intro p hp
      rw [List.mem_singleton] at hp
      rw [hp]
      norm_num
    · show 0 < (csLineEx.splitAtIndexOp 0 [(0, 301)]).mutations.length
      rw [hmut]
      simp
  · refine ⟨⟨301, 0, SvgChar.L⟩, ?_, by norm_num⟩
    rw [hfork]
    rfl

/-- Claim C4 (amended): every command state reachable through the public
mutation operations (`splitAtIndex`, `splitInHalfAtIndex`, `unsplitAtIndex`,
`convertAtIndex`, `unconvertSubpath`, `fork`, `merge`, `revert`), applied with
arguments satisfying their documented contracts, keeps its mutation list
sorted ascending by `t` with every parameter inside `[minT, maxT]`, its last
mutation — when one exists — at exactly `t = maxT` (which is `1` only until a
fork narrows the represented range), and, for a closepath-backed command, no
non-terminal mutation of closepath kind. -/
theorem reach_invariant_sorted_bounded_last (cs : CommandState) (h : Reach cs) :
    MutationInvariant cs := by
  induction h with
  | init backing cal => exact mutationInvariant_fresh backing cal
  | splitAt h i tsIds hi hts ih => exact mutationInvariant_splitAtIndexOp _ i tsIds ih hi hts
  | splitInHalf h i newId hi hfd ih =>
    exact mutationInvariant_splitInHalfAtIndexOp _ i newId ih hi hfd
  | unsplit h i hi ih => exact mutationInvariant_unsplitAtIndexOp _ i ih hi
  | convert h i c hi hcz ih => exact mutationInvariant_convertAtIndexOp _ i c ih hi hcz
  | unconvert h ih => exact mutationInvariant_unconvertSubpathOp _ ih
  | forkL h i hi ih => exact mutationInvariant_forkLeft _ i ih hi
  | forkR h i hi ih => exact mutationInvariant_forkRight _ i ih hi
  | mergeAdj h ho hbk hne hmin hlt hzs hzd ih iho =>
    exact mutationInvariant_mergeOp _ _ ih iho hbk hne hmin hlt hzs hzd
  | revert h hr ih => exact mutationInvariant_revertOp _ _ ih hr

/-- Witness for C4: the invariant holds of the concrete reachable state
obtained by splitting a fresh line-backed command state at local parameter
`0` of its only range. -/
theorem reach_invariant_sorted_bounded_last_witness :
    MutationInvariant ((CommandState.fresh lineCmdO (pointCalculator ptO)).splitAtIndexOp
      0 [(0, 302)]) :=
  reach_invariant_sorted_bounded_last _
    (Reach.splitAt (Reach.init lineCmdO (pointCalculator ptO)) 0 [(0, 302)]
      (by decide)
      (fun p hp => by rw [List.mem_singleton] at hp; rw [hp]; norm_num))

end ShapeShifter
